import Mathlib

/-!
Shallow embedding of the `macroquad-text` crate (sources: `src/lib.rs`,
`src/text.rs`, `src/misc.rs`).

Conventions of the embedding:
* `f32` values are modelled as exact rationals (`ℚ`); IEEE rounding is not
  modelled.  The sentinel constants `f32::MIN` / `f32::MAX` are the exact
  rational values of those floats.
* Interior mutability through `RefCell` is modelled by explicit state
  passing: a Rust method taking `&self` and mutating a cell becomes a Lean
  function returning the updated structure.
* A Rust panic (`expect`, `unwrap`, `HashMap` indexing) is modelled as
  `Option.none`; fallible computations live in the `Option` monad.
* `HashMap` is modelled as an association list with replace-on-insert
  semantics (`alookup` / `ainsert`); a `HashMap`'s iteration order is
  unspecified, the model uses the list order.
* The crate declares `pub(crate) mod atlas;` but `src/atlas.rs` is not among
  the sources; the `Atlas` component is therefore modelled from the spec
  (section 4.2), see the doc comments on the `Atlas` definitions below.
-/

/-- Association-list lookup, modelling `HashMap::get` / indexing: the value
stored for the first (hence, with `ainsert`, the unique) matching key. -/
def alookup {α β : Type} [DecidableEq α] : List (α × β) → α → Option β
  | [], _ => none
  | e :: es, k => if e.1 = k then some e.2 else alookup es k

/-- Helper for `ainsert`: drop every entry with the given key. -/
def aerase {α β : Type} [DecidableEq α] : List (α × β) → α → List (α × β)
  | [], _ => []
  | e :: es, k => if e.1 = k then aerase es k else e :: aerase es k

/-- Association-list insert, modelling `HashMap::insert`: replaces the value
stored for the key if present, otherwise adds the entry.  (Observationally
faithful to `HashMap`; the position of the entry models no particular
iteration order, which `HashMap` does not specify.) -/
def ainsert {α β : Type} [DecidableEq α] (m : List (α × β)) (k : α) (v : β) :
    List (α × β) :=
  aerase m k ++ [(k, v)]

/-- Exact rational value of `f32::MAX` (= (2^24 - 1) * 2^104). -/
def f32MAX : ℚ := 16777215 * 2 ^ 104

/-- Exact rational value of `f32::MIN` (= -f32::MAX). -/
def f32MIN : ℚ := -f32MAX

/-- Rust's saturating float-to-integer cast `as u16` (`size as u16` in
`measure_text`, `draw_text_ex`, ...): truncate toward zero, clamping to
the `u16` range. -/
def f32AsU16 (q : ℚ) : Nat := (max 0 (min 65535 ⌊q⌋)).toNat

/-- Texture sampling filter, `pub type ScalingMode = FilterMode` (lib.rs). -/
inductive ScalingMode : Type
  | Nearest : ScalingMode
  | Linear : ScalingMode
deriving DecidableEq

/-- A macroquad `Color` (four `f32` channels). -/
structure Color : Type where
  r : ℚ
  g : ℚ
  b : ℚ
  a : ℚ
deriving DecidableEq

/-- A macroquad `Rect` of `f32` fields. -/
structure Rect : Type where
  x : ℚ
  y : ℚ
  w : ℚ
  h : ℚ
deriving DecidableEq

/-- Modelled from the spec (section 4.2): a packed atlas region; `rect_of
(slot_id) -> Option<Rect>` is "stable for the slot's lifetime".  The crate
file `src/atlas.rs` is absent from the sources, so only the rectangle is
recorded. -/
structure Sprite : Type where
  rect : Rect
deriving DecidableEq

/-- A macroquad `Image` as built in `Font::_cache_glyph`: `width`/`height`
are `u16`, `bytes` the RGBA pixel data. -/
structure Image : Type where
  width : Nat
  height : Nat
  bytes : List Nat
deriving DecidableEq

/-- Modelled from the spec (section 4.2): the dynamic texture atlas.
`src/atlas.rs` is declared in lib.rs (`pub(crate) mod atlas;`) but absent
from the sources.  Per the spec the atlas "owns a single logical texture"
(`textureId` is the opaque handle of that texture, one per atlas) and "a
mapping from monotonically-increasing slot-id → packed rectangle"
(`uniqueId` is the id counter, `sprites` the mapping).  The shelf-packing
placement coordinates are irrelevant to every theorem below (only a packed
rectangle's width and height are ever read back by lib.rs), so placement is
modelled as a simple single-column layout recorded in `cursorY`. -/
structure Atlas : Type where
  mode : ScalingMode
  textureId : Nat
  uniqueId : Nat
  sprites : List (Nat × Sprite)
  cursorY : ℚ
deriving DecidableEq

/-- Modelled from the spec (section 4.2): `new(scaling_mode)` "starts with an
initial (small) texture and empty packing state".  Each atlas owns its own
fresh texture, whose opaque handle is passed in by the caller. -/
def Atlas.new (mode : ScalingMode) (tex : Nat) : Atlas :=
  { mode := mode, textureId := tex, uniqueId := 0, sprites := [], cursorY := 0 }

/-- Modelled from the spec (section 4.2, "monotonically-increasing slot-id"):
returns a fresh slot id and bumps the counter. -/
def Atlas.new_unique_id (a : Atlas) : Nat × Atlas :=
  (a.uniqueId, { a with uniqueId := a.uniqueId + 1 })

/-- Modelled from the spec (section 4.2): pack a bitmap under a given slot id.
The recorded rectangle has the bitmap's dimensions; its position comes from
the simplified placement (see `Atlas`). -/
def Atlas.cache_sprite (a : Atlas) (id : Nat) (img : Image) : Atlas :=
  { a with
    sprites := a.sprites ++
      [(id, ⟨{ x := 0, y := a.cursorY, w := (img.width : ℚ), h := (img.height : ℚ) }⟩)],
    cursorY := a.cursorY + (img.height : ℚ) }

/-- Modelled from the spec (section 4.2): `rect_of(slot_id) -> Option<Rect>`
(named `get` in lib.rs call sites, returning the sprite). -/
def Atlas.get (a : Atlas) (id : Nat) : Option Sprite :=
  alookup a.sprites id

/-- Modelled from the spec (section 4.2): `texture_handle() -> T`, the opaque
handle of the atlas's single texture. -/
def Atlas.texture (a : Atlas) : Nat :=
  a.textureId

/-- Metrics of one rasterized glyph, the relevant fields of `fontdue::Metrics`:
`xmin`/`ymin` are `i32` bearings, `width`/`height` the bitmap dimensions in
pixels (`usize`), `advance_width` an `f32`. -/
structure Metrics : Type where
  width : Nat
  height : Nat
  xmin : Int
  ymin : Int
  advance_width : ℚ
deriving DecidableEq

/-- The external rasterizer capability of a parsed `fontdue::Font` as consumed
by lib.rs: `lookup_glyph_index` (0 means "not present") and `rasterize`
(metrics plus coverage bitmap) at an integer pixel size. -/
structure FontdueFont : Type where
  lookup_glyph_index : Char → Nat
  rasterize : Char → Nat → Metrics × List Nat

/-- The cached per-`(char, size)` placement info (lib.rs `CharacterInfo`). -/
structure CharacterInfo : Type where
  id : Nat
  offset_x : ℚ
  offset_y : ℚ
  advance : ℚ
deriving DecidableEq

/-- Where to draw from (lib.rs `DrawFrom`). -/
inductive DrawFrom : Type
  | BottomLeft : DrawFrom
  | TopLeft : DrawFrom
deriving DecidableEq

/-- Text parameters (lib.rs `TextParams`). -/
structure TextParams : Type where
  x : ℚ
  y : ℚ
  size : ℚ
  scale : ℚ
  color : Color
  draw : DrawFrom

/-- A macroquad `TextDimensions` record. -/
structure TextDimensions : Type where
  width : ℚ
  height : ℚ
  offset_y : ℚ
deriving DecidableEq

/-- The lib.rs `Font` struct: a name, the parsed fontdue font, and the
per-font `RefCell`ed atlas and glyph cache. -/
structure Font : Type where
  name : String
  font : FontdueFont
  atlas : Atlas
  chars : List ((Char × Nat) × CharacterInfo)

/-- Constructor `Font::new` (lib.rs): a fresh atlas (with its own fresh
texture handle `tex`, see `Atlas.new`) and an empty glyph cache. -/
def Font.new (name : String) (font : FontdueFont) (mode : ScalingMode) (tex : Nat) : Font :=
  { name := name, font := font, atlas := Atlas.new mode tex, chars := [] }

/-- Lib.rs `Font::contains`: the font has a glyph for `c` iff
`lookup_glyph_index(c) != 0`. -/
def Font.contains (f : Font) (c : Char) : Bool :=
  f.font.lookup_glyph_index c != 0

/-- Lib.rs `Font::_cache_glyph`: rasterize, allocate a fresh atlas slot id,
broadcast the coverage bitmap into RGBA bytes, pack the image, and build the
`CharacterInfo`.  The `as u16` casts of the bitmap dimensions truncate
modulo 2^16. -/
def Font._cache_glyph (f : Font) (c : Char) (size : Nat) : CharacterInfo × Font :=
  let r := f.font.rasterize c size
  let width := r.1.width % 65536
  let height := r.1.height % 65536
  let p := f.atlas.new_unique_id
  let bytes := r.2.foldr (fun coverage acc => 255 :: 255 :: 255 :: coverage :: acc) []
  let atlas2 := p.2.cache_sprite p.1 { width := width, height := height, bytes := bytes }
  (⟨p.1, (r.1.xmin : ℚ), (r.1.ymin : ℚ), r.1.advance_width⟩, { f with atlas := atlas2 })

/-- Lib.rs `Font::cache_glyph`: no-op when an entry for `(c, size)` exists,
otherwise `_cache_glyph` and store the result. -/
def Font.cache_glyph (f : Font) (c : Char) (size : Nat) : Font :=
  if (alookup f.chars (c, size)).isSome then f
  else
    let p := f._cache_glyph c size
    { p.2 with chars := ainsert p.2.chars (c, size) p.1 }

/-- Lib.rs `Font::recache_glyphs`: for every existing cache entry, recompute
`_cache_glyph` and store the new info in place (iteration in the model's
entry order; a `HashMap`'s order is unspecified). -/
def Font.recache_glyphs (f : Font) : Font :=
  f.chars.foldl
    (fun acc e =>
      let p := acc._cache_glyph e.1.1 e.1.2
      { p.2 with chars := ainsert p.2.chars e.1 p.1 })
    f

/-- The lib.rs `Fonts` struct: the ordered font list, the name index, and the
default scaling mode.  `nextTex` is modelled from the spec: GPU texture
creation is an external capability handing each `Atlas::new` a fresh opaque
handle; the model threads a fresh-handle counter through the owning `Fonts`
(it influences nothing but the `textureId` of newly created atlases). -/
structure Fonts : Type where
  fonts : List Font
  index_by_name : List (String × Nat)
  default_sm : ScalingMode
  nextTex : Nat

/-- Lib.rs `Fonts::new`. -/
def Fonts.new (default_sm : ScalingMode) : Fonts :=
  { fonts := [], index_by_name := [], default_sm := default_sm, nextTex := 0 }

/-- Lib.rs `Fonts::load_font_from_bytes_with_scale`, taking the already
parsed font: byte parsing (`fontdue::Font::from_bytes`) and the
rasterization-quality `scale` parameter are external fontdue concerns; on
parse success the method inserts `name → fonts.len()` into the name index
and appends `Font::new(name, font, default_sm)`. -/
def Fonts.load_font (fs : Fonts) (name : String) (font : FontdueFont) : Fonts :=
  { fonts := fs.fonts ++ [Font.new name font fs.default_sm fs.nextTex],
    index_by_name := ainsert fs.index_by_name name fs.fonts.length,
    default_sm := fs.default_sm,
    nextTex := fs.nextTex + 1 }

/-- The name-index rebuild loop of `Fonts::unload_font_by_index` (lib.rs):
clear, then `insert(font.name, index)` for each font in order. -/
def rebuildIndex (fonts : List Font) : List (String × Nat) :=
  fonts.enum.foldl (fun m p => ainsert m p.2.name p.1) []

/-- Lib.rs `Fonts::unload_font_by_index`: silent no-op when out of range,
otherwise remove the font and rebuild the name index. -/
def Fonts.unload_font_by_index (fs : Fonts) (index : Nat) : Fonts :=
  if fs.fonts.length ≤ index then fs
  else
    let fonts := fs.fonts.eraseIdx index
    { fs with fonts := fonts, index_by_name := rebuildIndex fonts }

/-- Lib.rs `Fonts::get_index_by_name`. -/
def Fonts.get_index_by_name (fs : Fonts) (name : String) : Option Nat :=
  alookup fs.index_by_name name

/-- Lib.rs `Fonts::unload_font_by_name`:
`unload_font_by_index(get_index_by_name(name).unwrap_or(fonts.len()))`. -/
def Fonts.unload_font_by_name (fs : Fonts) (name : String) : Fonts :=
  fs.unload_font_by_index ((fs.get_index_by_name name).getD fs.fonts.length)

/-- Lib.rs `Fonts::get_font_by_index`. -/
def Fonts.get_font_by_index (fs : Fonts) (index : Nat) : Option Font :=
  fs.fonts[index]?

/-- Lib.rs `Fonts::get_index_by_char`:
`fonts.iter().position(|it| it.contains(c))`. -/
def Fonts.get_index_by_char (fs : Fonts) (c : Char) : Option Nat :=
  fs.fonts.findIdx? (fun it => it.contains c)

/-- Lib.rs `Fonts::get_font_by_char`. -/
def Fonts.get_font_by_char (fs : Fonts) (c : Char) : Option Font :=
  (fs.get_index_by_char c).bind fs.get_font_by_index

/-- Lib.rs `Fonts::get_font_by_char_or_panic`:
`get_font_by_char(c).or_else(|| fonts.first()).expect(...)`; the panic on an
empty font list is modelled as `none`. -/
def Fonts.get_font_by_char_or_panic (fs : Fonts) (c : Char) : Option Font :=
  (fs.get_font_by_char c).orElse (fun _ => fs.fonts.head?)

/-- Lib.rs `Fonts::contains`: `fonts.iter().any(|f| f.contains(c))`. -/
def Fonts.contains (fs : Fonts) (c : Char) : Bool :=
  fs.fonts.any (fun f => f.contains c)

/-- Lib.rs `Fonts::cache_glyph`: caches the character in every loaded font. -/
def Fonts.cache_glyph (fs : Fonts) (c : Char) (size : Nat) : Fonts :=
  { fs with fonts := fs.fonts.map (fun f => f.cache_glyph c size) }

/-- Index of the font that `get_font_by_char_or_panic` picks: the first font
containing the character, else index 0 when any font is loaded, else the
panic (`none`).  `Fonts.resolve_font` below proves this agrees with
`get_font_by_char_or_panic`. -/
def Fonts.resolveIdx (fs : Fonts) (c : Char) : Option Nat :=
  match fs.get_index_by_char c with
  | some i => some i
  | none => if fs.fonts.isEmpty then none else some 0

/-- Accumulator of the `measure_text` loop (lib.rs): the mutated fonts plus
the running `width` / `min_y` / `max_y` fold state. -/
structure MeasureAcc : Type where
  fonts : Fonts
  width : ℚ
  min_y : ℚ
  max_y : ℚ

/-- One iteration of the `measure_text` loop (lib.rs): resolve the font
(panic as `none`), `cache_glyph`, index into the cache (panic as `none`),
`atlas.get(info.id).unwrap()` (panic as `none`), then accumulate width and
the y-extrema exactly as the source's comparisons do. -/
def measureStep (size : Nat) (acc : MeasureAcc) (c : Char) : Option MeasureAcc := do
  let i ← acc.fonts.resolveIdx c
  let font0 ← acc.fonts.fonts[i]?
  let font := font0.cache_glyph c size
  let info ← alookup font.chars (c, size)
  let sp ← font.atlas.get info.id
  some
    { fonts := { acc.fonts with fonts := acc.fonts.fonts.set i font },
      width := acc.width + info.advance,
      min_y := if acc.min_y > info.offset_y then info.offset_y else acc.min_y,
      max_y :=
        if acc.max_y < sp.rect.h + info.offset_y then sp.rect.h + info.offset_y
        else acc.max_y }

/-- Lib.rs `Fonts::measure_text`: fold `measureStep` over the characters from
`width = 0`, `min_y = f32::MAX`, `max_y = f32::MIN`, and return
`{width, height: max_y - min_y, offset_y: max_y}` (plus the mutated state). -/
def Fonts.measure_text (fs : Fonts) (text : List Char) (size : ℚ) :
    Option (Fonts × TextDimensions) := do
  let acc ← text.foldlM (measureStep (f32AsU16 size))
    { fonts := fs, width := 0, min_y := f32MAX, max_y := f32MIN }
  some (acc.fonts, { width := acc.width, height := acc.max_y - acc.min_y, offset_y := acc.max_y })

/-- One iteration of the `measure_scaled_text` loop (lib.rs): as
`measureStep` but with every height/offset/advance term multiplied by
`scale`. -/
def measureScaledStep (size : Nat) (scale : ℚ) (acc : MeasureAcc) (c : Char) :
    Option MeasureAcc := do
  let i ← acc.fonts.resolveIdx c
  let font0 ← acc.fonts.fonts[i]?
  let font := font0.cache_glyph c size
  let info ← alookup font.chars (c, size)
  let sp ← font.atlas.get info.id
  let h := sp.rect.h * scale
  let offy := info.offset_y * scale
  some
    { fonts := { acc.fonts with fonts := acc.fonts.fonts.set i font },
      width := acc.width + info.advance * scale,
      min_y := if acc.min_y > offy then offy else acc.min_y,
      max_y := if acc.max_y < h + offy then h + offy else acc.max_y }

/-- Lib.rs `Fonts::measure_scaled_text`. -/
def Fonts.measure_scaled_text (fs : Fonts) (text : List Char) (size scale : ℚ) :
    Option (Fonts × TextDimensions) := do
  let acc ← text.foldlM (measureScaledStep (f32AsU16 size) scale)
    { fonts := fs, width := 0, min_y := f32MAX, max_y := f32MIN }
  some (acc.fonts, { width := acc.width, height := acc.max_y - acc.min_y, offset_y := acc.max_y })

/-- One draw command handed to macroquad's `draw_texture_ex` by
`Fonts::_draw_char`: the atlas texture handle plus destination position and
size, tint color, and source rectangle. -/
structure DrawCmd : Type where
  texture : Nat
  x : ℚ
  y : ℚ
  color : Color
  destW : ℚ
  destH : ℚ
  source : Rect
deriving DecidableEq

/-- Lib.rs `Fonts::_draw_char`: read the cached info (`HashMap` indexing
panic as `none`) and sprite (`unwrap` as `none`), compute the destination
quad — shifting `y` by `size * scale` in `DrawFrom::TopLeft` mode — and
return the scaled advance together with the emitted draw command. -/
def Fonts._draw_char (c : Char) (current_width : ℚ) (color : Color) (font : Font)
    (params : TextParams) : Option (ℚ × DrawCmd) := do
  let info ← alookup font.chars (c, f32AsU16 params.size)
  let sp ← font.atlas.get info.id
  let glyph := sp.rect
  let w := glyph.w * params.scale
  let h := glyph.h * params.scale
  let offset_x := info.offset_x * params.scale
  let offset_y := info.offset_y * params.scale
  let advance := info.advance * params.scale
  let y0 := 0 - h - offset_y + params.y
  let y := if params.draw = DrawFrom.TopLeft then y0 + params.size * params.scale else y0
  some (advance,
    { texture := font.atlas.texture, x := offset_x + current_width + params.x, y := y,
      color := color, destW := w, destH := h, source := glyph })

/-- First pass of `Fonts::draw_text_ex` (lib.rs): for each character, resolve
the font (panic as `none`) and `cache_glyph` at the truncated size. -/
def Fonts.cachePass (fs : Fonts) (size : Nat) (text : List Char) : Option Fonts :=
  text.foldlM
    (fun fs c => do
      let i ← fs.resolveIdx c
      let font0 ← fs.fonts[i]?
      some { fs with fonts := fs.fonts.set i (font0.cache_glyph c size) })
    fs

/-- Lib.rs `Fonts::draw_text_ex`: pass 1 caches every character, pass 2
emits one draw command per character while accumulating `total_width`, and
the call returns `measure_scaled_text` of the same text.  The emitted
command list is part of the model's result. -/
def Fonts.draw_text_ex (fs : Fonts) (text : List Char) (params : TextParams) :
    Option (Fonts × List DrawCmd × TextDimensions) := do
  let fs1 ← fs.cachePass (f32AsU16 params.size) text
  let r ← text.foldlM
    (fun (acc : ℚ × List DrawCmd) c => do
      let font ← fs1.get_font_by_char_or_panic c
      let p ← Fonts._draw_char c acc.1 params.color font params
      some (acc.1 + p.1, acc.2 ++ [p.2]))
    ((0 : ℚ), ([] : List DrawCmd))
  let m ← fs1.measure_scaled_text text params.size params.scale
  some (m.1, r.2, m.2)

/-- Lib.rs `Fonts::draw_text`: `draw_text_ex` with scale 1 and top-left
anchoring. -/
def Fonts.draw_text (fs : Fonts) (text : List Char) (x y size : ℚ) (color : Color) :
    Option (Fonts × List DrawCmd × TextDimensions) :=
  fs.draw_text_ex text
    { x := x, y := y, size := size, scale := 1, color := color, draw := DrawFrom.TopLeft }

/-- A `text.rs` `Component`: a literal run of characters (`Str`, as its
character list), a single character (`Chr`, source name `Char`), or a color
marker (`Col`, source name `Color`). -/
inductive Component : Type
  | Str : List Char → Component
  | Chr : Char → Component
  | Col : Color → Component

/-- A `text.rs` `ColoredStr`: an ordered sequence of components. -/
structure ColoredStr : Type where
  components : List Component

/-- The `text.rs` `ColorStrIter` state: the stateful current color, the
character iterator of the `Str` component being traversed, and the remaining
components. -/
structure ColorStrIter : Type where
  current_color : Option Color
  current_chars : Option (List Char)
  components : List Component

/-- Lib.rs `ColoredStr::iter`: fresh iterator with no current color and no
current character run. -/
def ColoredStr.iter (s : ColoredStr) : ColorStrIter :=
  { current_color := none, current_chars := none, components := s.components }

/-- Termination measure for the iterator: remaining characters plus
per-component bookkeeping. -/
def Component.csize : Component → Nat
  | .Str s => s.length + 2
  | .Chr _ => 1
  | .Col _ => 1

/-- Termination measure of a `ColorStrIter` state. -/
def ColorStrIter.mu (it : ColorStrIter) : Nat :=
  (match it.current_chars with
   | some cs => cs.length + 1
   | none => 0) +
  (it.components.map Component.csize).sum

/-- The `text.rs` `ColorStrIter::next` (model of the `Iterator` impl):
yields the next `(char, current color)` pair, exhausting `Str` runs,
recording `Color` markers into the state, and recursing past empty runs and
markers exactly as the source does. -/
def ColorStrIter.next : ColorStrIter → Option ((Char × Option Color) × ColorStrIter)
  | ⟨col, some [], comps⟩ => ColorStrIter.next ⟨col, none, comps⟩
  | ⟨col, some (c :: cs), comps⟩ => some ((c, col), ⟨col, some cs, comps⟩)
  | ⟨_, none, []⟩ => none
  | ⟨col, none, .Str s :: rest⟩ => ColorStrIter.next ⟨col, some s, rest⟩
  | ⟨col, none, .Chr c :: rest⟩ => some ((c, col), ⟨col, none, rest⟩)
  | ⟨_, none, .Col color :: rest⟩ => ColorStrIter.next ⟨some color, none, rest⟩
termination_by it => it.mu
decreasing_by
  all_goals simp [ColorStrIter.mu, Component.csize]

/-- Exhaustive run of the iterator: the full sequence of pairs that
`ColorStrIter` yields (the result of collecting the `Iterator`). -/
def ColorStrIter.run : ColorStrIter → List (Char × Option Color)
  | ⟨col, some [], comps⟩ => ColorStrIter.run ⟨col, none, comps⟩
  | ⟨col, some (c :: cs), comps⟩ => (c, col) :: ColorStrIter.run ⟨col, some cs, comps⟩
  | ⟨_, none, []⟩ => []
  | ⟨col, none, .Str s :: rest⟩ => ColorStrIter.run ⟨col, some s, rest⟩
  | ⟨col, none, .Chr c :: rest⟩ => (c, col) :: ColorStrIter.run ⟨col, none, rest⟩
  | ⟨_, none, .Col color :: rest⟩ => ColorStrIter.run ⟨some color, none, rest⟩
termination_by it => it.mu
decreasing_by
  all_goals simp [ColorStrIter.mu, Component.csize]

/-- Collected iteration of a `ColoredStr`. -/
def ColoredStr.toPairs (s : ColoredStr) : List (Char × Option Color) :=
  s.iter.run

/-- Statement of claim C9 in the spec's words, to be compared with the
iterator: one pair per character of `Str`/`Chr` components in sequence
order, paired with the most recent preceding `Col` marker (or the inherited
current color), `Col` components yielding nothing. -/
def coloredStrSpec : Option Color → List Component → List (Char × Option Color)
  | _, [] => []
  | cur, .Str s :: rest => s.map (fun c => (c, cur)) ++ coloredStrSpec cur rest
  | cur, .Chr c :: rest => (c, cur) :: coloredStrSpec cur rest
  | _, .Col color :: rest => coloredStrSpec (some color) rest

/-- The resolution-relevant projection of a font list: the parsed fontdue
fonts in order (caching never changes it). -/
def Fonts.sig (fs : Fonts) : List FontdueFont :=
  fs.fonts.map (fun f => f.font)

/-! ### The cached data observable after a measuring or drawing call -/

/-- The cache entry and atlas sprite that the resolved font holds for a
character at a given (truncated) pixel size. -/
def Fonts.cachedInfo (fs : Fonts) (sz : Nat) (c : Char) : Option (CharacterInfo × Sprite) := do
  let i ← fs.resolveIdx c
  let f ← fs.fonts[i]?
  let info ← alookup f.chars (c, sz)
  let sp ← f.atlas.get info.id
  some (info, sp)

/-- The cached advance of a character (0 when not cached). -/
def advOf (fs : Fonts) (sz : Nat) (c : Char) : ℚ :=
  ((fs.cachedInfo sz c).map (fun p => p.1.advance)).getD 0

/-- The cached `offset_y` of a character (0 when not cached). -/
def offOf (fs : Fonts) (sz : Nat) (c : Char) : ℚ :=
  ((fs.cachedInfo sz c).map (fun p => p.1.offset_y)).getD 0

/-- The cached glyph-bitmap height plus `offset_y` of a character (0 when not
cached). -/
def topOf (fs : Fonts) (sz : Nat) (c : Char) : ℚ :=
  ((fs.cachedInfo sz c).map (fun p => p.2.rect.h + p.1.offset_y)).getD 0

/-- Maximum of a list of rationals (`none` for the empty list). -/
def listMax : List ℚ → Option ℚ
  | [] => none
  | x :: xs => some (xs.foldl max x)

/-- Minimum of a list of rationals (`none` for the empty list). -/
def listMin : List ℚ → Option ℚ
  | [] => none
  | x :: xs => some (xs.foldl min x)

/-! ### Well-formedness of the private cache and atlas state

The `chars` and `atlas` fields of a `Font` are private in the source: every
entry is produced by `_cache_glyph`, so an entry's slot id always names a
packed sprite, cached bearings are `i32` casts and sprite dimensions `u16`
casts.  `Font.WF` captures exactly this reachable-state coherence (plus the
`i32` range of the external rasterizer's bearings) and is preserved by all
modelled operations. -/

def EntryWF (f : Font) (info : CharacterInfo) : Prop :=
  -(2 ^ 31 : ℚ) ≤ info.offset_y ∧ info.offset_y < 2 ^ 31 ∧
    ∃ sp, f.atlas.get info.id = some sp ∧ 0 ≤ sp.rect.h ∧ sp.rect.h < 2 ^ 16

def Font.WF (f : Font) : Prop :=
  (∀ k info, alookup f.chars k = some info → EntryWF f info) ∧
  (∀ c s, -(2 ^ 31 : Int) ≤ (f.font.rasterize c s).1.ymin ∧
    (f.font.rasterize c s).1.ymin < 2 ^ 31) ∧
  (∀ p ∈ f.atlas.sprites, p.1 < f.atlas.uniqueId)

def Fonts.WF (fs : Fonts) : Prop := ∀ f ∈ fs.fonts, f.WF


/-- Lib.rs `Fonts::draw_colored_text_ex`: like `draw_text_ex` but iterating
the `ColoredStr`'s (character, color) pairs — pass 1 caches every character,
pass 2 draws each character tinted with its pair's color
(`color.unwrap_or(params.color)`), and the call returns
`measure_scaled_text` over the characters of the pairs. -/
def Fonts.draw_colored_text_ex (fs : Fonts) (text : ColoredStr) (params : TextParams) :
    Option (Fonts × List DrawCmd × TextDimensions) := do
  let fs1 ← fs.cachePass (f32AsU16 params.size) (text.toPairs.map (fun p => p.1))
  let r ← text.toPairs.foldlM
    (fun (acc : ℚ × List DrawCmd) (p : Char × Option Color) => do
      let color := p.2.getD params.color
      let font ← fs1.get_font_by_char_or_panic p.1
      let q ← Fonts._draw_char p.1 acc.1 color font params
      some (acc.1 + q.1, acc.2 ++ [q.2]))
    ((0 : ℚ), ([] : List DrawCmd))
  let m ← fs1.measure_scaled_text (text.toPairs.map (fun p => p.1)) params.size params.scale
  some (m.1, r.2, m.2)

/-- Lib.rs `Fonts::draw_char`: resolve the font (panic as `none`), cache the
character at the truncated size, and emit one draw command via
`_draw_char`, returning the mutated state with the scaled advance and the
command. -/
def Fonts.draw_char (fs : Fonts) (c : Char) (current_width : ℚ) (params : TextParams) :
    Option (Fonts × ℚ × DrawCmd) := do
  let i ← fs.resolveIdx c
  let font0 ← fs.fonts[i]?
  let font := font0.cache_glyph c (f32AsU16 params.size)
  let r ← Fonts._draw_char c current_width params.color font params
  some ({ fs with fonts := fs.fonts.set i font }, r)

/-! ### Concrete instances used by witnesses and counterexamples -/

/-- A concrete parsed font containing only the character `a` (arbitrary but
fixed metrics, in range of `i32`/`u16`). -/
def exFdA : FontdueFont :=
  { lookup_glyph_index := fun c => if c = 'a' then 1 else 0,
    rasterize := fun _ _ =>
      ({ width := 3, height := 4, xmin := 1, ymin := -2, advance_width := 5 }, [7, 8]) }

/-- A concrete parsed font containing only the character `b`. -/
def exFdB : FontdueFont :=
  { lookup_glyph_index := fun c => if c = 'b' then 2 else 0,
    rasterize := fun _ _ =>
      ({ width := 2, height := 3, xmin := 0, ymin := -1, advance_width := 4 }, [9]) }

/-- A concrete parsed font containing only the character `c`. -/
def exFdC : FontdueFont :=
  { lookup_glyph_index := fun c => if c = 'c' then 3 else 0,
    rasterize := fun _ _ =>
      ({ width := 1, height := 2, xmin := 0, ymin := 0, advance_width := 3 }, [1]) }

/-- One loaded font (named `A`, containing only `a`). -/
def exFsA : Fonts := (Fonts.new ScalingMode.Linear).load_font "A" exFdA

/-- Two loaded fonts (`A` then `B`). -/
def exFsAB : Fonts := ((Fonts.new ScalingMode.Linear).load_font "A" exFdA).load_font "B" exFdB

/-- Three loaded fonts (`A`, `B`, `C`). -/
def exFsABC : Fonts :=
  (((Fonts.new ScalingMode.Linear).load_font "A" exFdA).load_font "B" exFdB).load_font "C" exFdC

/-- Two loaded fonts sharing the name `A`. -/
def exFsDup : Fonts := ((Fonts.new ScalingMode.Linear).load_font "A" exFdA).load_font "A" exFdB

/-- A single fresh font value (name `A`, fontdue font `exFdA`). -/
def exFont1 : Font := Font.new "A" exFdA ScalingMode.Linear 0

/-- Opaque white color. -/
def exWhite : Color := { r := 1, g := 1, b := 1, a := 1 }

/-- A red color. -/
def exRed : Color := { r := 1, g := 0, b := 0, a := 1 }

/-- A blue color. -/
def exBlue : Color := { r := 0, g := 0, b := 1, a := 1 }

/-- A concrete one-character colored string. -/
def exColored : ColoredStr := { components := [Component.Chr 'b'] }

/-- Concrete draw parameters at size 16. -/
def exParams : TextParams :=
  { x := 0, y := 0, size := 16, scale := 1, color := exWhite, draw := DrawFrom.TopLeft }

/-! ### Association-list lemmas -/

theorem alookup_append {α β : Type} [DecidableEq α] (m m2 : List (α × β)) (k : α) :
    alookup (m ++ m2) k =
      match alookup m k with
      | some v => some v
      | none => alookup m2 k := by
  induction m with
  | nil => simp [alookup]
  | cons e es ih =>
    by_cases h : e.1 = k
    · simp [alookup, h]
    · simpa [alookup, h] using ih

theorem alookup_aerase_self {α β : Type} [DecidableEq α] (m : List (α × β)) (k : α) :
    alookup (aerase m k) k = none := by
  induction m with
  | nil => rfl
  | cons e es ih =>
    by_cases h : e.1 = k
    · simpa [aerase, h] using ih
    · simpa [aerase, alookup, h] using ih

theorem alookup_aerase_ne {α β : Type} [DecidableEq α] (m : List (α × β)) (k k2 : α)
    (h2 : ¬ k2 = k) : alookup (aerase m k) k2 = alookup m k2 := by
  induction m with
  | nil => rfl
  | cons e es ih =>
    have h2s : ¬ k = k2 := fun hc => h2 hc.symm
    by_cases h : e.1 = k
    · have he : ¬ e.1 = k2 := by rw [h]; exact h2s
      simpa [aerase, alookup, h, he, h2s] using ih
    · by_cases he : e.1 = k2
      · simp [aerase, alookup, h, he, h2]
      · simpa [aerase, alookup, h, he, h2] using ih

theorem alookup_aerase {α β : Type} [DecidableEq α] (m : List (α × β)) (k k2 : α) :
    alookup (aerase m k) k2 = if k2 = k then none else alookup m k2 := by
  by_cases h : k2 = k
  · rw [if_pos h, h]; exact alookup_aerase_self m k
  · rw [if_neg h]; exact alookup_aerase_ne m k k2 h

theorem alookup_ainsert {α β : Type} [DecidableEq α] (m : List (α × β)) (k k2 : α) (v : β) :
    alookup (ainsert m k v) k2 = if k2 = k then some v else alookup m k2 := by
  rw [ainsert, alookup_append, alookup_aerase]
  by_cases h : k2 = k
  · simp [h, alookup]
  · have h2 : ¬ k = k2 := fun hc => h hc.symm
    simp only [h, if_neg h, alookup, h2, if_false]
    cases alookup m k2 <;> rfl

theorem alookup_ainsert_self {α β : Type} [DecidableEq α] (m : List (α × β)) (k : α) (v : β) :
    alookup (ainsert m k v) k = some v := by
  simp [alookup_ainsert]

theorem alookup_append_left {α β : Type} [DecidableEq α] {m m2 : List (α × β)} {k : α} {v : β}
    (h : alookup m k = some v) : alookup (m ++ m2) k = some v := by
  rw [alookup_append, h]

theorem alookup_none_of_ne {α β : Type} [DecidableEq α] {m : List (α × β)} {k : α}
    (h : ∀ e ∈ m, e.1 ≠ k) : alookup m k = none := by
  induction m with
  | nil => rfl
  | cons e es ih =>
    have h1 : ¬ e.1 = k := h e (List.mem_cons_self e es)
    simp only [alookup, h1, if_false]
    exact ih fun e he => h e (List.mem_cons_of_mem _ he)

/-! ### `List.findIdx?` specification lemmas -/

theorem findIdxQ_some_spec {α : Type} (p : α → Bool) :
    ∀ (l : List α) (i : Nat), l.findIdx? p = some i →
      (∃ x, l[i]? = some x ∧ p x = true) ∧
        ∀ j y, j < i → l[j]? = some y → p y = false := by
  intro l
  induction l with
  | nil => intro i h; simp [List.findIdx?] at h
  | cons x xs ih =>
    intro i h
    rw [List.findIdx?_cons, List.findIdx?_succ] at h
    by_cases hx : p x = true
    · simp only [hx, if_true] at h
      obtain rfl : i = 0 := by exact (Option.some_inj.mp h).symm
      exact ⟨⟨x, by simp, hx⟩, fun j y hj => absurd hj (by omega)⟩
    · simp only [hx, if_false] at h
      obtain ⟨i0, hi0, rfl⟩ : ∃ i0, xs.findIdx? p = some i0 ∧ i = i0 + 1 := by
        cases h2 : xs.findIdx? p with
        | none => rw [h2] at h; simp at h
        | some i0 => rw [h2] at h; simp at h; exact ⟨i0, rfl, h.symm⟩
      obtain ⟨⟨y0, hy0, hpy0⟩, hmin⟩ := ih i0 hi0
      refine ⟨⟨y0, by simpa using hy0, hpy0⟩, ?_⟩
      intro j y hj hy
      cases j with
      | zero =>
        simp only [List.getElem?_cons_zero, Option.some_inj] at hy
        rw [← hy]
        exact Bool.eq_false_iff.mpr hx
      | succ j0 =>
        simp only [List.getElem?_cons_succ] at hy
        exact hmin j0 y (by omega) hy

theorem findIdxQ_none_spec {α : Type} (p : α → Bool) (l : List α) :
    l.findIdx? p = none ↔ ∀ x ∈ l, p x = false :=
  List.findIdx?_eq_none_iff

theorem findIdxQ_map {α β : Type} (g : α → β) (q : β → Bool) :
    ∀ l : List α, (l.map g).findIdx? q = l.findIdx? (fun a => q (g a)) := by
  intro l
  induction l with
  | nil => rfl
  | cons x xs ih =>
    rw [List.map_cons, List.findIdx?_cons, List.findIdx?_cons, List.findIdx?_succ,
      List.findIdx?_succ, ih]

/-! ### Basic facts about `Font._cache_glyph` and `Font.cache_glyph` -/

theorem cacheRaw_font (f : Font) (c : Char) (s : Nat) : (f._cache_glyph c s).2.font = f.font := rfl

theorem cacheRaw_name (f : Font) (c : Char) (s : Nat) : (f._cache_glyph c s).2.name = f.name := rfl

theorem cacheRaw_chars (f : Font) (c : Char) (s : Nat) : (f._cache_glyph c s).2.chars = f.chars := rfl

theorem cacheRaw_tex (f : Font) (c : Char) (s : Nat) :
    (f._cache_glyph c s).2.atlas.textureId = f.atlas.textureId := rfl

theorem cacheRaw_uid (f : Font) (c : Char) (s : Nat) :
    (f._cache_glyph c s).2.atlas.uniqueId = f.atlas.uniqueId + 1 := rfl

theorem cacheRaw_sprites (f : Font) (c : Char) (s : Nat) :
    (f._cache_glyph c s).2.atlas.sprites =
      f.atlas.sprites ++
        [(f.atlas.uniqueId,
          ⟨{ x := 0, y := f.atlas.cursorY,
             w := (((f.font.rasterize c s).1.width % 65536 : Nat) : ℚ),
             h := (((f.font.rasterize c s).1.height % 65536 : Nat) : ℚ) }⟩)] := rfl

theorem cacheRaw_info (f : Font) (c : Char) (s : Nat) :
    (f._cache_glyph c s).1 =
      ⟨f.atlas.uniqueId, ((f.font.rasterize c s).1.xmin : ℚ),
        ((f.font.rasterize c s).1.ymin : ℚ), (f.font.rasterize c s).1.advance_width⟩ := rfl

theorem cache_glyph_of_isSome {f : Font} {c : Char} {s : Nat}
    (h : (alookup f.chars (c, s)).isSome) : f.cache_glyph c s = f := by
  unfold Font.cache_glyph
  rw [if_pos h]

theorem cache_glyph_of_none {f : Font} {c : Char} {s : Nat}
    (h : alookup f.chars (c, s) = none) :
    f.cache_glyph c s =
      { (f._cache_glyph c s).2 with
        chars := ainsert (f._cache_glyph c s).2.chars (c, s) (f._cache_glyph c s).1 } := by
  unfold Font.cache_glyph
  rw [if_neg (by simp [h])]

theorem cache_glyph_font (f : Font) (c : Char) (s : Nat) : (f.cache_glyph c s).font = f.font := by
  unfold Font.cache_glyph
  split <;> rfl

theorem cache_glyph_name (f : Font) (c : Char) (s : Nat) : (f.cache_glyph c s).name = f.name := by
  unfold Font.cache_glyph
  split <;> rfl

theorem cache_glyph_tex (f : Font) (c : Char) (s : Nat) :
    (f.cache_glyph c s).atlas.textureId = f.atlas.textureId := by
  unfold Font.cache_glyph
  split <;> rfl

theorem cache_glyph_lookup_preserved {f : Font} {c : Char} {s : Nat} {k : Char × Nat}
    {v : CharacterInfo} (h : alookup f.chars k = some v) :
    alookup (f.cache_glyph c s).chars k = some v := by
  by_cases hs : (alookup f.chars (c, s)).isSome
  · rw [cache_glyph_of_isSome hs]; exact h
  · rw [cache_glyph_of_none (Option.not_isSome_iff_eq_none.mp hs)]
    show alookup (ainsert (f._cache_glyph c s).2.chars (c, s) (f._cache_glyph c s).1) k = some v
    rw [cacheRaw_chars, alookup_ainsert]
    by_cases hk : k = (c, s)
    · rw [hk] at h
      rw [Option.not_isSome_iff_eq_none.mp hs] at h
      exact absurd h (by simp)
    · rw [if_neg hk]; exact h

theorem cache_glyph_get_preserved {f : Font} {c : Char} {s : Nat} {id : Nat} {sp : Sprite}
    (h : f.atlas.get id = some sp) : (f.cache_glyph c s).atlas.get id = some sp := by
  by_cases hs : (alookup f.chars (c, s)).isSome
  · rw [cache_glyph_of_isSome hs]; exact h
  · rw [cache_glyph_of_none (Option.not_isSome_iff_eq_none.mp hs)]
    show alookup (f._cache_glyph c s).2.atlas.sprites id = some sp
    rw [cacheRaw_sprites]
    exact alookup_append_left h

theorem cache_glyph_lookup_self (f : Font) (c : Char) (s : Nat) :
    ∃ info, alookup (f.cache_glyph c s).chars (c, s) = some info := by
  by_cases hs : (alookup f.chars (c, s)).isSome
  · obtain ⟨info, hinfo⟩ := Option.isSome_iff_exists.mp hs
    exact ⟨info, by rw [cache_glyph_of_isSome hs]; exact hinfo⟩
  · refine ⟨(f._cache_glyph c s).1, ?_⟩
    rw [cache_glyph_of_none (Option.not_isSome_iff_eq_none.mp hs)]
    show alookup (ainsert (f._cache_glyph c s).2.chars (c, s) (f._cache_glyph c s).1) (c, s) =
      some (f._cache_glyph c s).1
    exact alookup_ainsert_self _ _ _

theorem atlas_get_fresh {spr : List (Nat × Sprite)} {uid : Nat} {sp : Sprite}
    (h : ∀ p ∈ spr, p.1 < uid) : alookup (spr ++ [(uid, sp)]) uid = some sp := by
  rw [alookup_append, alookup_none_of_ne fun e he => Nat.ne_of_lt (h e he)]
  simp [alookup]

theorem cache_glyph_chars_of_none {f : Font} {c : Char} {s : Nat}
    (h : alookup f.chars (c, s) = none) :
    (f.cache_glyph c s).chars = ainsert f.chars (c, s) (f._cache_glyph c s).1 := by
  unfold Font.cache_glyph
  rw [if_neg (by simp [h])]
  rfl

theorem cache_glyph_atlas_of_none {f : Font} {c : Char} {s : Nat}
    (h : alookup f.chars (c, s) = none) :
    (f.cache_glyph c s).atlas = (f._cache_glyph c s).2.atlas := by
  unfold Font.cache_glyph
  rw [if_neg (by simp [h])]

theorem cache_glyph_WF {f : Font} (hwf : f.WF) (c : Char) (s : Nat) : (f.cache_glyph c s).WF := by
  obtain ⟨hent, hras, hatlas⟩ := hwf
  by_cases hs : (alookup f.chars (c, s)).isSome
  · rw [cache_glyph_of_isSome hs]; exact ⟨hent, hras, hatlas⟩
  · have hnone := Option.not_isSome_iff_eq_none.mp hs
    refine ⟨?_, ?_, ?_⟩
    · intro k info hk
      rw [cache_glyph_chars_of_none hnone, alookup_ainsert] at hk
      unfold EntryWF
      simp only [Atlas.get, cache_glyph_atlas_of_none hnone, cacheRaw_sprites]
      by_cases hkc : k = (c, s)
      · rw [if_pos hkc, Option.some_inj] at hk
        subst hk
        rw [cacheRaw_info]
        refine ⟨?_, ?_, ?_⟩
        · show -(2 ^ 31 : ℚ) ≤ ((f.font.rasterize c s).1.ymin : ℚ)
          exact_mod_cast (hras c s).1
        · show ((f.font.rasterize c s).1.ymin : ℚ) < 2 ^ 31
          exact_mod_cast (hras c s).2
        · refine ⟨_, atlas_get_fresh hatlas, ?_, ?_⟩
          · show (0 : ℚ) ≤ (((f.font.rasterize c s).1.height % 65536 : Nat) : ℚ)
            positivity
          · show (((f.font.rasterize c s).1.height % 65536 : Nat) : ℚ) < 2 ^ 16
            have h1 : (f.font.rasterize c s).1.height % 65536 < 65536 :=
              Nat.mod_lt _ (by norm_num)
            calc (((f.font.rasterize c s).1.height % 65536 : Nat) : ℚ)
                < (65536 : ℚ) := by exact_mod_cast h1
              _ = 2 ^ 16 := by norm_num
      · rw [if_neg hkc] at hk
        obtain ⟨h1, h2, sp, hsp, h3, h4⟩ := hent k info hk
        exact ⟨h1, h2, sp, alookup_append_left hsp, h3, h4⟩
    · intro c2 s2
      rw [cache_glyph_font]
      exact hras c2 s2
    · intro p hp
      rw [cache_glyph_atlas_of_none hnone, cacheRaw_sprites] at hp
      rw [cache_glyph_atlas_of_none hnone, cacheRaw_uid]
      rcases List.mem_append.mp hp with h | h
      · exact Nat.lt_succ_of_lt (hatlas p h)
      · simp only [List.mem_singleton] at h
        rw [h]
        exact Nat.lt_succ_self _

theorem cache_glyph_get_self {f : Font} (hwf : f.WF) (c : Char) (s : Nat) :
    ∃ info sp, alookup (f.cache_glyph c s).chars (c, s) = some info ∧
      (f.cache_glyph c s).atlas.get info.id = some sp := by
  obtain ⟨info, hinfo⟩ := cache_glyph_lookup_self f c s
  obtain ⟨_, _, sp, hsp, _, _⟩ := (cache_glyph_WF hwf c s).1 (c, s) info hinfo
  exact ⟨info, sp, hinfo, hsp⟩

/-! ### Resolution depends only on the parsed fonts -/

theorem length_eq_of_sig {fs fs2 : Fonts} (h : fs.sig = fs2.sig) :
    fs.fonts.length = fs2.fonts.length := by
  have := congrArg List.length h
  simpa [Fonts.sig] using this

theorem get_index_by_char_sig {fs fs2 : Fonts} (h : fs.sig = fs2.sig) (c : Char) :
    fs.get_index_by_char c = fs2.get_index_by_char c := by
  unfold Fonts.get_index_by_char
  have h1 := findIdxQ_map (fun f : Font => f.font)
    (fun fd => fd.lookup_glyph_index c != 0) fs.fonts
  have h2 := findIdxQ_map (fun f : Font => f.font)
    (fun fd => fd.lookup_glyph_index c != 0) fs2.fonts
  unfold Fonts.sig at h
  rw [show (fun it : Font => it.contains c) =
      (fun f : Font => (fun fd : FontdueFont => fd.lookup_glyph_index c != 0) f.font) from rfl,
    ← h1, ← h2, h]

theorem resolveIdx_sig {fs fs2 : Fonts} (h : fs.sig = fs2.sig) (c : Char) :
    fs.resolveIdx c = fs2.resolveIdx c := by
  unfold Fonts.resolveIdx
  rw [get_index_by_char_sig h]
  have hl : fs.fonts.isEmpty = fs2.fonts.isEmpty := by
    have h0 := length_eq_of_sig h
    cases hf : fs.fonts <;> cases hf2 : fs2.fonts <;>
      simp_all
  rw [hl]

theorem set_self_of_getElem {α : Type} {l : List α} {i : Nat} {a : α} (h : l[i]? = some a) :
    l.set i a = l := by
  apply List.ext_getElem?
  intro n
  by_cases hn : i = n
  · subst hn
    obtain ⟨hlt, _⟩ := List.getElem?_eq_some.mp h
    rw [List.getElem?_set_self (by simpa using hlt), h]
  · rw [List.getElem?_set_ne hn]

theorem sig_set_cache {fs : Fonts} {i : Nat} {font0 : Font} (h : fs.fonts[i]? = some font0)
    (c : Char) (s : Nat) :
    Fonts.sig { fs with fonts := fs.fonts.set i (font0.cache_glyph c s) } = fs.sig := by
  show (fs.fonts.set i (font0.cache_glyph c s)).map (fun f => f.font) =
    fs.fonts.map (fun f => f.font)
  rw [List.map_set, cache_glyph_font]
  exact set_self_of_getElem (by rw [List.getElem?_map, h]; rfl)

theorem foldl_max_sentinel {l : List ℚ} {s : ℚ} (hne : l ≠ []) (hb : ∀ v ∈ l, s ≤ v) :
    listMax l = some (l.foldl max s) := by
  cases l with
  | nil => exact absurd rfl hne
  | cons x xs =>
    have hx : max s x = x := max_eq_right (hb x (List.mem_cons_self x xs))
    simp [listMax, List.foldl_cons, hx]

theorem foldl_min_sentinel {l : List ℚ} {s : ℚ} (hne : l ≠ []) (hb : ∀ v ∈ l, v ≤ s) :
    listMin l = some (l.foldl min s) := by
  cases l with
  | nil => exact absurd rfl hne
  | cons x xs =>
    have hx : min s x = x := min_eq_right (hb x (List.mem_cons_self x xs))
    simp [listMin, List.foldl_cons, hx]

/-- `get_font_by_char_or_panic` picks exactly the font at `resolveIdx`. -/
theorem resolve_font (fs : Fonts) (c : Char) :
    fs.get_font_by_char_or_panic c = (fs.resolveIdx c).bind (fun i => fs.fonts[i]?) := by
  unfold Fonts.get_font_by_char_or_panic Fonts.get_font_by_char Fonts.resolveIdx
    Fonts.get_font_by_index
  cases hidx : fs.get_index_by_char c with
  | some i =>
    obtain ⟨⟨x, hx, _⟩, _⟩ := findIdxQ_some_spec _ _ _ hidx
    simp [Option.bind, hx, Option.orElse]
  | none =>
    cases hl : fs.fonts with
    | nil => simp [Option.orElse, hl]
    | cons f rest =>
      have : fs.fonts.isEmpty = false := by rw [hl]; rfl
      simp [Option.orElse, this, List.head?_eq_getElem?]

/-! ### The `measure_text` loop body -/

theorem if_gt_eq_min (a b : ℚ) : (if a > b then b else a) = min a b := by
  rcases le_or_lt a b with h | h
  · rw [if_neg (not_lt.mpr h), min_eq_left h]
  · rw [if_pos h, min_eq_right h.le]

theorem if_lt_eq_max (a b : ℚ) : (if a < b then b else a) = max a b := by
  rcases lt_or_le a b with h | h
  · rw [if_pos h, max_eq_right h.le]
  · rw [if_neg (not_lt.mpr h), max_eq_left h]

theorem measureStep_spec {sz : Nat} {acc acc' : MeasureAcc} {c : Char}
    (h : measureStep sz acc c = some acc') :
    ∃ i font0 info sp,
      acc.fonts.resolveIdx c = some i ∧
      acc.fonts.fonts[i]? = some font0 ∧
      alookup (font0.cache_glyph c sz).chars (c, sz) = some info ∧
      (font0.cache_glyph c sz).atlas.get info.id = some sp ∧
      acc'.fonts = { acc.fonts with fonts := acc.fonts.fonts.set i (font0.cache_glyph c sz) } ∧
      acc'.width = acc.width + info.advance ∧
      acc'.min_y = min acc.min_y info.offset_y ∧
      acc'.max_y = max acc.max_y (sp.rect.h + info.offset_y) := by
  unfold measureStep at h
  simp only [bind, Option.bind_eq_some, Option.some_inj] at h
  obtain ⟨i, hi, font0, hfont0, info, hinfo, sp, hsp, hacc⟩ := h
  refine ⟨i, font0, info, sp, hi, hfont0, hinfo, hsp, ?_, ?_, ?_, ?_⟩
  · rw [← hacc]
  · rw [← hacc]
  · rw [← hacc]
    exact if_gt_eq_min _ _
  · rw [← hacc]
    exact if_lt_eq_max _ _

theorem measureStep_cachedInfo_self {sz : Nat} {fs0 : Fonts} {c : Char}
    {i : Nat} {font0 : Font} {info : CharacterInfo} {sp : Sprite}
    (hi : fs0.resolveIdx c = some i)
    (hfont0 : fs0.fonts[i]? = some font0)
    (hinfo : alookup (font0.cache_glyph c sz).chars (c, sz) = some info)
    (hsp : (font0.cache_glyph c sz).atlas.get info.id = some sp) :
    Fonts.cachedInfo { fs0 with fonts := fs0.fonts.set i (font0.cache_glyph c sz) }
      sz c = some (info, sp) := by
  have hsig := sig_set_cache hfont0 c sz
  have hres : Fonts.resolveIdx
      { fs0 with fonts := fs0.fonts.set i (font0.cache_glyph c sz) } c = some i := by
    rw [resolveIdx_sig hsig, hi]
  have hlt : i < fs0.fonts.length := (List.getElem?_eq_some.mp hfont0).1
  have hget : ({ fs0 with
      fonts := fs0.fonts.set i (font0.cache_glyph c sz) } : Fonts).fonts[i]? =
      some (font0.cache_glyph c sz) := by
    show (fs0.fonts.set i (font0.cache_glyph c sz))[i]? = some (font0.cache_glyph c sz)
    rw [List.getElem?_set_self (by simpa using hlt)]
  simp only [Fonts.cachedInfo, bind, hres, Option.some_bind, hget, hinfo, hsp]

theorem measureStep_cachedInfo_mono {sz : Nat} {fs0 : Fonts} {c : Char}
    {i : Nat} {font0 : Font}
    (hi : fs0.resolveIdx c = some i)
    (hfont0 : fs0.fonts[i]? = some font0)
    {c2 : Char} {v : CharacterInfo × Sprite}
    (hv : Fonts.cachedInfo fs0 sz c2 = some v) :
    Fonts.cachedInfo { fs0 with fonts := fs0.fonts.set i (font0.cache_glyph c sz) }
      sz c2 = some v := by
  have hsig := sig_set_cache hfont0 c sz
  simp only [Fonts.cachedInfo, bind, Option.bind_eq_some, Option.some_inj] at hv
  obtain ⟨j, hj, fj, hfj, infoj, hinfoj, spj, hspj, hv⟩ := hv
  have hres : Fonts.resolveIdx
      { fs0 with fonts := fs0.fonts.set i (font0.cache_glyph c sz) } c2 = some j := by
    rw [resolveIdx_sig hsig, hj]
  by_cases hij : j = i
  · subst hij
    have hfj0 : fj = font0 := by
      rw [hfont0, Option.some_inj] at hfj
      exact hfj.symm
    subst hfj0
    have hlt : j < fs0.fonts.length := (List.getElem?_eq_some.mp hfj).1
    have hget : ({ fs0 with
        fonts := fs0.fonts.set j (fj.cache_glyph c sz) } : Fonts).fonts[j]? =
        some (fj.cache_glyph c sz) := by
      show (fs0.fonts.set j (fj.cache_glyph c sz))[j]? = some (fj.cache_glyph c sz)
      rw [List.getElem?_set_self (by simpa using hlt)]
    simp only [Fonts.cachedInfo, bind, hres, Option.some_bind, hget,
      cache_glyph_lookup_preserved hinfoj, cache_glyph_get_preserved hspj, hv]
  · have hget : ({ fs0 with
        fonts := fs0.fonts.set i (font0.cache_glyph c sz) } : Fonts).fonts[j]? =
        some fj := by
      show (fs0.fonts.set i (font0.cache_glyph c sz))[j]? = some fj
      rw [List.getElem?_set_ne (fun hc => hij hc.symm), hfj]
    simp only [Fonts.cachedInfo, bind, hres, Option.some_bind, hget, hinfoj, hspj, hv]

theorem measureStep_WF {sz : Nat} {fs0 : Fonts} {c : Char} {i : Nat} {font0 : Font}
    (hwf : fs0.WF) (hfont0 : fs0.fonts[i]? = some font0) :
    Fonts.WF { fs0 with fonts := fs0.fonts.set i (font0.cache_glyph c sz) } := by
  intro f hf
  rcases List.mem_or_eq_of_mem_set hf with h | h
  · exact hwf f h
  · rw [h]
    exact cache_glyph_WF (hwf font0 (List.getElem?_mem hfont0)) c sz

theorem resolveIdx_isSome_spec {fs : Fonts} (hne : fs.fonts ≠ []) (c : Char) :
    ∃ i font0, fs.resolveIdx c = some i ∧ fs.fonts[i]? = some font0 := by
  unfold Fonts.resolveIdx
  cases hidx : fs.get_index_by_char c with
  | some i =>
    obtain ⟨⟨x, hx, _⟩, _⟩ := findIdxQ_some_spec _ _ _ hidx
    exact ⟨i, x, rfl, hx⟩
  | none =>
    cases hl : fs.fonts with
    | nil => exact absurd hl hne
    | cons f rest =>
      exact ⟨0, f, rfl, by simp⟩

theorem measureStep_isSome (sz : Nat) {acc : MeasureAcc} (hwf : acc.fonts.WF)
    (hne : acc.fonts.fonts ≠ []) (c : Char) :
    (measureStep sz acc c).isSome := by
  obtain ⟨i, font0, hres, hfont0⟩ := resolveIdx_isSome_spec hne c
  obtain ⟨info, sp, hinfo, hsp⟩ :=
    cache_glyph_get_self (hwf font0 (List.getElem?_mem hfont0)) c sz
  simp only [measureStep, bind, hres, Option.some_bind, hfont0, hinfo, hsp]
  rfl

theorem measureStep_none_of_empty {sz : Nat} {acc : MeasureAcc} (h : acc.fonts.fonts = [])
    (c : Char) : measureStep sz acc c = none := by
  have hres : acc.fonts.resolveIdx c = none := by
    unfold Fonts.resolveIdx Fonts.get_index_by_char
    rw [h]
    rfl
  simp only [measureStep, bind, hres, Option.none_bind]

/-! ### The `measure_text` fold -/

theorem measure_fold_spec (sz : Nat) :
    ∀ (text : List Char) (acc acc' : MeasureAcc),
      text.foldlM (measureStep sz) acc = some acc' →
      acc'.fonts.sig = acc.fonts.sig ∧
      (∀ c2 v, Fonts.cachedInfo acc.fonts sz c2 = some v →
        Fonts.cachedInfo acc'.fonts sz c2 = some v) ∧
      (acc.fonts.WF → acc'.fonts.WF) ∧
      (∀ c ∈ text, (Fonts.cachedInfo acc'.fonts sz c).isSome) ∧
      acc'.width = acc.width + (text.map (advOf acc'.fonts sz)).sum ∧
      acc'.min_y = (text.map (offOf acc'.fonts sz)).foldl min acc.min_y ∧
      acc'.max_y = (text.map (topOf acc'.fonts sz)).foldl max acc.max_y := by
  intro text
  induction text with
  | nil =>
    intro acc acc' h
    have h2 : acc = acc' := by simpa using h
    subst h2
    refine ⟨rfl, fun c2 v hv => hv, fun hwf => hwf, by simp, by simp, by simp, by simp⟩
  | cons c rest ih =>
    intro acc acc' h
    rw [List.foldlM_cons] at h
    simp only [bind, Option.bind_eq_some] at h
    obtain ⟨acc1, hstep, hrest⟩ := h
    obtain ⟨i, font0, info, sp, hi, hfont0, hinfo, hsp, hfonts1, hw1, hmin1, hmax1⟩ :=
      measureStep_spec hstep
    obtain ⟨ihsig, ihmono, ihwf, ihmem, ihw, ihmin, ihmax⟩ := ih acc1 acc' hrest
    have hself : Fonts.cachedInfo acc1.fonts sz c = some (info, sp) := by
      rw [hfonts1]
      exact measureStep_cachedInfo_self hi hfont0 hinfo hsp
    have hfinal : Fonts.cachedInfo acc'.fonts sz c = some (info, sp) := ihmono c (info, sp) hself
    have hadv : advOf acc'.fonts sz c = info.advance := by simp [advOf, hfinal]
    have hoff : offOf acc'.fonts sz c = info.offset_y := by simp [offOf, hfinal]
    have htop : topOf acc'.fonts sz c = sp.rect.h + info.offset_y := by simp [topOf, hfinal]
    refine ⟨?_, ?_, ?_, ?_, ?_, ?_, ?_⟩
    · rw [ihsig, hfonts1, sig_set_cache hfont0 c sz]
    · intro c2 v hv
      refine ihmono c2 v ?_
      rw [hfonts1]
      exact measureStep_cachedInfo_mono hi hfont0 hv
    · intro hwf
      refine ihwf ?_
      rw [hfonts1]
      exact measureStep_WF hwf hfont0
    · intro c2 hc2
      rcases List.mem_cons.mp hc2 with h | h
      · rw [h, hfinal]; rfl
      · exact ihmem c2 h
    · rw [ihw, hw1, List.map_cons, List.sum_cons, hadv]
      ring
    · rw [ihmin, hmin1, List.map_cons, List.foldl_cons, hoff]
    · rw [ihmax, hmax1, List.map_cons, List.foldl_cons, htop]

theorem measure_fold_isSome (sz : Nat) :
    ∀ (text : List Char) (acc : MeasureAcc), acc.fonts.WF → acc.fonts.fonts ≠ [] →
      (text.foldlM (measureStep sz) acc).isSome := by
  intro text
  induction text with
  | nil => intro acc _ _; simp
  | cons c rest ih =>
    intro acc hwf hne
    rw [List.foldlM_cons]
    obtain ⟨acc1, hstep⟩ := Option.isSome_iff_exists.mp (measureStep_isSome sz hwf hne c)
    obtain ⟨i, font0, info, sp, hi, hfont0, hinfo, hsp, hfonts1, _, _, _⟩ :=
      measureStep_spec hstep
    have hwf1 : acc1.fonts.WF := by
      rw [hfonts1]
      exact measureStep_WF hwf hfont0
    have hne1 : acc1.fonts.fonts ≠ [] := by
      rw [hfonts1]
      show acc.fonts.fonts.set i (font0.cache_glyph c sz) ≠ []
      intro hc
      exact hne (by simpa using congrArg List.length hc)
    simp only [bind, hstep, Option.some_bind]
    exact ih acc1 hwf1 hne1

theorem measure_fold_none_of_empty (sz : Nat) {text : List Char} (hne : text ≠ [])
    {acc : MeasureAcc} (h : acc.fonts.fonts = []) :
    text.foldlM (measureStep sz) acc = none := by
  cases text with
  | nil => exact absurd rfl hne
  | cons c rest =>
    rw [List.foldlM_cons]
    simp only [bind, measureStep_none_of_empty h c, Option.none_bind]

theorem cachedInfo_bounds {fs : Fonts} (hwf : fs.WF) {sz : Nat} {c : Char}
    {info : CharacterInfo} {sp : Sprite} (h : fs.cachedInfo sz c = some (info, sp)) :
    -(2 ^ 31 : ℚ) ≤ info.offset_y ∧ info.offset_y < 2 ^ 31 ∧
      0 ≤ sp.rect.h ∧ sp.rect.h < 2 ^ 16 := by
  simp only [Fonts.cachedInfo, bind, Option.bind_eq_some, Option.some_inj] at h
  obtain ⟨i, _, f, hf, info2, hinfo2, sp2, hsp2, heq⟩ := h
  have heqi : info2 = info := congrArg Prod.fst heq
  have heqs : sp2 = sp := congrArg Prod.snd heq
  obtain ⟨h1, h2, sp3, hsp3, h3, h4⟩ := (hwf f (List.getElem?_mem hf)).1 _ info2 hinfo2
  have hsp23 : sp3 = sp2 := by
    rw [hsp2] at hsp3
    exact (Option.some_inj.mp hsp3).symm
  rw [← heqi, ← heqs]
  exact ⟨h1, h2, hsp23 ▸ h3, hsp23 ▸ h4⟩

theorem measure_text_unfold {fs : Fonts} {text : List Char} {size : ℚ} {fs' : Fonts}
    {d : TextDimensions} (h : fs.measure_text text size = some (fs', d)) :
    ∃ acc', text.foldlM (measureStep (f32AsU16 size))
        { fonts := fs, width := 0, min_y := f32MAX, max_y := f32MIN } = some acc' ∧
      fs' = acc'.fonts ∧
      d = { width := acc'.width, height := acc'.max_y - acc'.min_y, offset_y := acc'.max_y } := by
  unfold Fonts.measure_text at h
  simp only [bind, Option.bind_eq_some, Option.some_inj] at h
  obtain ⟨acc', hfold, heq⟩ := h
  exact ⟨acc', hfold, (congrArg Prod.fst heq).symm, (congrArg Prod.snd heq).symm⟩

/-- Claim C6: for every character sequence and size, a successful
`measure_text` call returns width equal to the sum of the cached
per-character advances; every character is cached at that (truncated) size
by the single pass; and for nonempty text the returned `offset_y` is the
maximum over the characters of (glyph bitmap height + cached `offset_y`),
and the returned height is that maximum minus the minimum cached
`offset_y`. -/
theorem c6_theorem (fs : Fonts) (text : List Char) (size : ℚ) (fs' : Fonts)
    (d : TextDimensions) (hwf : fs.WF)
    (h : fs.measure_text text size = some (fs', d)) :
    d.width = (text.map (advOf fs' (f32AsU16 size))).sum ∧
    (∀ c ∈ text, (fs'.cachedInfo (f32AsU16 size) c).isSome) ∧
    (text ≠ [] →
      listMax (text.map (topOf fs' (f32AsU16 size))) = some d.offset_y ∧
      ∃ mn, listMin (text.map (offOf fs' (f32AsU16 size))) = some mn ∧
        d.height = d.offset_y - mn) := by
  obtain ⟨acc', hfold, hfs', hd⟩ := measure_text_unfold h
  obtain ⟨hsig, hmono, hwf', hmem, hw, hmin, hmax⟩ :=
    measure_fold_spec (f32AsU16 size) text _ acc' hfold
  subst hfs'
  have hwfacc : acc'.fonts.WF := hwf' hwf
  refine ⟨?_, hmem, ?_⟩
  · rw [hd, hw]
    show (0 : ℚ) + _ = _
    ring
  · intro hne
    have hvals : ∀ c ∈ text, ∃ info sp,
        acc'.fonts.cachedInfo (f32AsU16 size) c = some (info, sp) := by
      intro c hc
      obtain ⟨p, hp⟩ := Option.isSome_iff_exists.mp (hmem c hc)
      exact ⟨p.1, p.2, by rw [hp]⟩
    constructor
    · have hb : ∀ v ∈ text.map (topOf acc'.fonts (f32AsU16 size)), f32MIN ≤ v := by
        intro v hv
        obtain ⟨c, hc, hvc⟩ := List.mem_map.mp hv
        obtain ⟨info, sp, hcs⟩ := hvals c hc
        obtain ⟨b1, _, b3, _⟩ := cachedInfo_bounds hwfacc hcs
        have : topOf acc'.fonts (f32AsU16 size) c = sp.rect.h + info.offset_y := by
          simp [topOf, hcs]
        rw [← hvc, this]
        have hlow : -(2 ^ 31 : ℚ) ≤ sp.rect.h + info.offset_y := by linarith
        have hm : f32MIN ≤ -(2 ^ 31 : ℚ) := by norm_num [f32MIN, f32MAX]
        linarith
      have hne2 : text.map (topOf acc'.fonts (f32AsU16 size)) ≠ [] := by
        simpa using hne
      rw [foldl_max_sentinel hne2 hb, ← hmax, hd]
    · refine ⟨acc'.min_y, ?_, ?_⟩
      · have hb : ∀ v ∈ text.map (offOf acc'.fonts (f32AsU16 size)), v ≤ f32MAX := by
          intro v hv
          obtain ⟨c, hc, hvc⟩ := List.mem_map.mp hv
          obtain ⟨info, sp, hcs⟩ := hvals c hc
          obtain ⟨_, b2, _, _⟩ := cachedInfo_bounds hwfacc hcs
          have : offOf acc'.fonts (f32AsU16 size) c = info.offset_y := by
            simp [offOf, hcs]
          rw [← hvc, this]
          have hm : (2 ^ 31 : ℚ) ≤ f32MAX := by norm_num [f32MAX]
          linarith
        have hne2 : text.map (offOf acc'.fonts (f32AsU16 size)) ≠ [] := by
          simpa using hne
        rw [foldl_min_sentinel hne2 hb, ← hmin]
      · rw [hd]

/-- Claim C10: measuring the empty character sequence never panics — even
with zero fonts loaded — and returns the unreduced fold sentinels: width 0,
`offset_y = f32::MIN` and `height = f32::MIN - f32::MAX`, a negative
height rather than a zero-sized bounding box (in `f32` arithmetic the
subtraction overflows to negative infinity; the model computes the exact
rational value of the same expression). -/
theorem c10_theorem (fs : Fonts) (size : ℚ) :
    fs.measure_text [] size =
      some (fs, { width := 0, height := f32MIN - f32MAX, offset_y := f32MIN }) ∧
    f32MIN - f32MAX < 0 := by
  constructor
  · rfl
  · norm_num [f32MIN, f32MAX]

/-! ### Well-formedness of freshly loaded font sets -/

theorem new_font_WF (name : String) (fd : FontdueFont) (mode : ScalingMode) (tex : Nat)
    (hras : ∀ c s, -(2 ^ 31 : Int) ≤ (fd.rasterize c s).1.ymin ∧
      (fd.rasterize c s).1.ymin < 2 ^ 31) :
    (Font.new name fd mode tex).WF := by
  refine ⟨?_, hras, ?_⟩
  · intro k info hk
    simp [Font.new, alookup] at hk
  · intro p hp
    simp [Font.new, Atlas.new] at hp

theorem load_font_WF {fs : Fonts} (hwf : fs.WF) {name : String} {fd : FontdueFont}
    (hras : ∀ c s, -(2 ^ 31 : Int) ≤ (fd.rasterize c s).1.ymin ∧
      (fd.rasterize c s).1.ymin < 2 ^ 31) :
    (fs.load_font name fd).WF := by
  intro f hf
  rcases List.mem_append.mp hf with h | h
  · exact hwf f h
  · simp only [List.mem_singleton] at h
    rw [h]
    exact new_font_WF _ _ _ _ hras

theorem empty_fonts_WF (mode : ScalingMode) : (Fonts.new mode).WF := by
  intro f hf
  simp [Fonts.new] at hf

theorem exFdA_bounds : ∀ c s, -(2 ^ 31 : Int) ≤ (exFdA.rasterize c s).1.ymin ∧
    (exFdA.rasterize c s).1.ymin < 2 ^ 31 := by
  intro c s
  norm_num [exFdA]

theorem exFdB_bounds : ∀ c s, -(2 ^ 31 : Int) ≤ (exFdB.rasterize c s).1.ymin ∧
    (exFdB.rasterize c s).1.ymin < 2 ^ 31 := by
  intro c s
  norm_num [exFdB]

theorem exFdC_bounds : ∀ c s, -(2 ^ 31 : Int) ≤ (exFdC.rasterize c s).1.ymin ∧
    (exFdC.rasterize c s).1.ymin < 2 ^ 31 := by
  intro c s
  norm_num [exFdC]

theorem exFsA_WF : exFsA.WF :=
  load_font_WF (empty_fonts_WF ScalingMode.Linear) exFdA_bounds

theorem exFsAB_WF : exFsAB.WF :=
  load_font_WF (load_font_WF (empty_fonts_WF ScalingMode.Linear) exFdA_bounds) exFdB_bounds

/-- Witness for C6: measuring the string `a` at size 16 with one concrete
loaded font returns dimensions 5 x 4 with baseline offset 2, and the width
equals the sum of cached advances, the offset the maximal cached top. -/
theorem c6_witness :
    ∃ fs' d, exFsA.measure_text ['a'] 16 = some (fs', d) ∧
      d = { width := 5, height := 4, offset_y := 2 } ∧
      d.width = (['a'].map (advOf fs' (f32AsU16 16))).sum ∧
      listMax (['a'].map (topOf fs' (f32AsU16 16))) = some d.offset_y := by
  have hval : (exFsA.measure_text ['a'] 16).map (fun p => p.2) =
      some { width := 5, height := 4, offset_y := 2 } := by
    simp [Fonts.measure_text, measureStep, exFsA, Fonts.new, Fonts.load_font, Font.new,
      Font.cache_glyph, Font._cache_glyph, alookup, ainsert, aerase, Atlas.new,
      Atlas.new_unique_id, Atlas.cache_sprite, Atlas.get, Atlas.texture, Fonts.resolveIdx,
      Fonts.get_index_by_char, List.findIdx?, Font.contains, exFdA, f32AsU16, f32MAX, f32MIN]
    norm_num [f32MAX]
  obtain ⟨p, hp⟩ : ∃ p, exFsA.measure_text ['a'] 16 = some p := by
    cases hmt : exFsA.measure_text ['a'] 16 with
    | none => rw [hmt] at hval; simp at hval
    | some p => exact ⟨p, rfl⟩
  have hd : p.2 = { width := 5, height := 4, offset_y := 2 } := by
    rw [hp] at hval
    simpa using hval
  have hp2 : exFsA.measure_text ['a'] 16 = some (p.1, p.2) := by rw [hp]
  have hmain := c6_theorem exFsA ['a'] 16 p.1 p.2 exFsA_WF hp2
  refine ⟨p.1, p.2, hp2, hd, hmain.1, ?_⟩
  exact (hmain.2.2 (by simp)).1

/-- Claim C2: `get_index_by_char` returns the smallest index of a font
containing the character (non-zero glyph index), `none` when no loaded font
contains it, and `Fonts::contains` is true iff `get_index_by_char` is
`some` — a later-registered font is never preferred. -/
theorem c2_theorem (fs : Fonts) (c : Char) :
    (∀ i, fs.get_index_by_char c = some i →
      (∃ f, fs.fonts[i]? = some f ∧ f.contains c = true) ∧
      ∀ j g, j < i → fs.fonts[j]? = some g → g.contains c = false) ∧
    (fs.get_index_by_char c = none ↔ ∀ f ∈ fs.fonts, f.contains c = false) ∧
    (fs.contains c = true ↔ (fs.get_index_by_char c).isSome = true) ∧
    (∀ f : Font, f.contains c = (f.font.lookup_glyph_index c != 0)) := by
  refine ⟨?_, findIdxQ_none_spec _ _, ?_, fun f => rfl⟩
  · intro i hi
    obtain ⟨⟨x, hx, hpx⟩, hmin⟩ := findIdxQ_some_spec _ _ _ hi
    exact ⟨⟨x, hx, hpx⟩, fun j g hj hg => hmin j g hj hg⟩
  · rw [Fonts.contains, List.any_eq_true]
    constructor
    · rintro ⟨x, hx, hpx⟩
      cases h : fs.get_index_by_char c with
      | none =>
        rw [(findIdxQ_none_spec _ _).mp h x hx] at hpx
        exact absurd hpx (by simp)
      | some i => rfl
    · intro h
      cases hidx : fs.get_index_by_char c with
      | none => rw [hidx] at h; simp at h
      | some i =>
        obtain ⟨⟨x, hx, hpx⟩, _⟩ := findIdxQ_some_spec _ _ _ hidx
        exact ⟨x, List.getElem?_mem hx, hpx⟩

/-- Witness for C2 at a concrete two-font instance: `b` resolves to index 1
(and no earlier font contains it), `z` resolves to no font, and `contains`
agrees. -/
theorem c2_witness :
    ((∃ f, exFsAB.fonts[1]? = some f ∧ f.contains 'b' = true) ∧
      ∀ j g, j < 1 → exFsAB.fonts[j]? = some g → g.contains 'b' = false) ∧
    (∀ f ∈ exFsAB.fonts, f.contains 'z' = false) ∧
    exFsAB.contains 'b' = true := by
  refine ⟨(c2_theorem exFsAB 'b').1 1 (by decide), ?_, ?_⟩
  · exact ((c2_theorem exFsAB 'z').2.1).mp (by decide)
  · exact ((c2_theorem exFsAB 'b').2.2.1).mpr (by decide)

/-- Claim C3: glyph caching is idempotent — a call with an already-cached
`(char, size)` key is a no-op, the second of two identical calls changes
nothing (in particular the stored `CharacterInfo` and its slot id are
unchanged), and a first call on an uncached key allocates exactly one new
atlas slot. -/
theorem c3_theorem (f : Font) (c : Char) (s : Nat) :
    ((alookup f.chars (c, s)).isSome → f.cache_glyph c s = f) ∧
    (f.cache_glyph c s).cache_glyph c s = f.cache_glyph c s ∧
    alookup ((f.cache_glyph c s).cache_glyph c s).chars (c, s) =
      alookup (f.cache_glyph c s).chars (c, s) ∧
    (alookup f.chars (c, s) = none →
      (f.cache_glyph c s).atlas.uniqueId = f.atlas.uniqueId + 1 ∧
      (f.cache_glyph c s).atlas.sprites.length = f.atlas.sprites.length + 1) := by
  have hsecond : (f.cache_glyph c s).cache_glyph c s = f.cache_glyph c s := by
    obtain ⟨info, hinfo⟩ := cache_glyph_lookup_self f c s
    exact cache_glyph_of_isSome (by rw [hinfo]; rfl)
  refine ⟨fun hs => cache_glyph_of_isSome hs, hsecond, by rw [hsecond], ?_⟩
  intro hnone
  rw [cache_glyph_atlas_of_none hnone, cacheRaw_uid, cacheRaw_sprites]
  simp

/-- Witness for C3 at a concrete fresh font: caching `a` at size 16 twice
equals caching it once, and the single call allocates exactly one slot. -/
theorem c3_witness :
    (exFont1.cache_glyph 'a' 16).cache_glyph 'a' 16 = exFont1.cache_glyph 'a' 16 ∧
    (exFont1.cache_glyph 'a' 16).atlas.uniqueId = exFont1.atlas.uniqueId + 1 ∧
    (exFont1.cache_glyph 'a' 16).atlas.sprites.length = exFont1.atlas.sprites.length + 1 := by
  refine ⟨(c3_theorem exFont1 'a' 16).2.1, ?_, ?_⟩
  · exact ((c3_theorem exFont1 'a' 16).2.2.2 (by decide)).1
  · exact ((c3_theorem exFont1 'a' 16).2.2.2 (by decide)).2

/-! ### The name-index rebuild of `unload_font_by_index` -/

theorem mem_aerase {α β : Type} [DecidableEq α] {m : List (α × β)} {k : α} {e : α × β}
    (h : e ∈ aerase m k) : e ∈ m := by
  induction m with
  | nil => simp [aerase] at h
  | cons e2 es ih =>
    by_cases h2 : e2.1 = k
    · rw [aerase, if_pos h2] at h
      exact List.mem_cons_of_mem _ (ih h)
    · rw [aerase, if_neg h2] at h
      rcases List.mem_cons.mp h with h3 | h3
      · rw [h3]; exact List.mem_cons_self _ _
      · exact List.mem_cons_of_mem _ (ih h3)

theorem mem_ainsert {α β : Type} [DecidableEq α] {m : List (α × β)} {k : α} {v : β}
    {e : α × β} (h : e ∈ ainsert m k v) : e ∈ m ∨ e = (k, v) := by
  rcases List.mem_append.mp h with h2 | h2
  · exact Or.inl (mem_aerase h2)
  · exact Or.inr (by simpa using h2)

theorem alookup_mem {α β : Type} [DecidableEq α] {m : List (α × β)} {k : α} {v : β}
    (h : alookup m k = some v) : (k, v) ∈ m := by
  induction m with
  | nil => simp [alookup] at h
  | cons e es ih =>
    by_cases h2 : e.1 = k
    · rw [alookup, if_pos h2, Option.some_inj] at h
      have he : (k, v) = e := by rw [← h2, ← h]
      rw [he]
      exact List.mem_cons_self _ _
    · rw [alookup, if_neg h2] at h
      exact List.mem_cons_of_mem _ (ih h)

theorem aerase_of_absent {α β : Type} [DecidableEq α] {m : List (α × β)} {k : α}
    (h : ∀ e ∈ m, e.1 ≠ k) : aerase m k = m := by
  induction m with
  | nil => rfl
  | cons e es ih =>
    rw [aerase, if_neg (h e (List.mem_cons_self e es))]
    rw [ih fun e2 he2 => h e2 (List.mem_cons_of_mem _ he2)]

theorem foldl_ainsert_enumFrom :
    ∀ (l : List Font) (n : Nat) (m0 : List (String × Nat)),
      (∀ f ∈ l, ∀ e ∈ m0, e.1 ≠ f.name) → (l.map Font.name).Nodup →
      (List.enumFrom n l).foldl (fun m p => ainsert m p.2.name p.1) m0 =
        m0 ++ (List.enumFrom n l).map (fun p => (p.2.name, p.1)) := by
  intro l
  induction l with
  | nil => intro n m0 _ _; simp
  | cons f rest ih =>
    intro n m0 hdisj hnd
    have hstep : ainsert m0 f.name n = m0 ++ [(f.name, n)] := by
      rw [ainsert, aerase_of_absent fun e he => hdisj f (List.mem_cons_self f rest) e he]
    have hnd2 : (rest.map Font.name).Nodup := by
      rw [List.map_cons] at hnd
      exact hnd.of_cons
    have hdisj2 : ∀ g ∈ rest, ∀ e ∈ m0 ++ [(f.name, n)], e.1 ≠ g.name := by
      intro g hg e he
      rcases List.mem_append.mp he with h2 | h2
      · exact hdisj g (List.mem_cons_of_mem _ hg) e h2
      · simp only [List.mem_singleton] at h2
        rw [h2]
        show f.name ≠ g.name
        rw [List.map_cons] at hnd
        intro hc
        exact (List.nodup_cons.mp hnd).1 (hc ▸ List.mem_map_of_mem Font.name hg)
    show ((n, f) :: List.enumFrom (n + 1) rest).foldl
        (fun m p => ainsert m p.2.name p.1) m0 = _
    rw [List.foldl_cons]
    show (List.enumFrom (n + 1) rest).foldl (fun m p => ainsert m p.2.name p.1)
        (ainsert m0 f.name n) = _
    rw [hstep, ih (n + 1) (m0 ++ [(f.name, n)]) hdisj2 hnd2]
    simp

theorem rebuildIndex_eq_of_nodup (l : List Font) (hnd : (l.map Font.name).Nodup) :
    rebuildIndex l = (List.enumFrom 0 l).map (fun p => (p.2.name, p.1)) := by
  have h := foldl_ainsert_enumFrom l 0 [] (by simp) hnd
  simpa [rebuildIndex, List.enum] using h

theorem alookup_enumFrom_map :
    ∀ (l : List Font) (n j : Nat) (f : Font), (l.map Font.name).Nodup → l[j]? = some f →
      alookup ((List.enumFrom n l).map (fun p => (p.2.name, p.1))) f.name = some (n + j) := by
  intro l
  induction l with
  | nil => intro n j f _ hj; simp at hj
  | cons g rest ih =>
    intro n j f hnd hj
    cases j with
    | zero =>
      simp only [List.getElem?_cons_zero, Option.some_inj] at hj
      subst hj
      simp [alookup]
    | succ j2 =>
      simp only [List.getElem?_cons_succ] at hj
      have hne : ¬ g.name = f.name := by
        rw [List.map_cons] at hnd
        intro hc
        exact (List.nodup_cons.mp hnd).1
          (hc ▸ List.mem_map_of_mem Font.name (List.getElem?_mem hj))
      show alookup ((g.name, n) :: (List.enumFrom (n + 1) rest).map (fun p => (p.2.name, p.1)))
          f.name = some (n + (j2 + 1))
      rw [alookup, if_neg hne]
      have := ih (n + 1) j2 f (by rw [List.map_cons] at hnd; exact hnd.of_cons) hj
      rw [this]
      congr 1
      omega

theorem lookup_rebuild_of_nodup {l : List Font} (hnd : (l.map Font.name).Nodup) {j : Nat}
    {f : Font} (hj : l[j]? = some f) : alookup (rebuildIndex l) f.name = some j := by
  rw [rebuildIndex_eq_of_nodup l hnd]
  have := alookup_enumFrom_map l 0 j f hnd hj
  simpa using this

/-- Claim C7: after an in-range `unload_font_by_index(i)` (witnessed by a
font existing at index `i+1`), with distinct font names, the font that was
at `i+1` sits at `i`, its name now resolves to `i`, and every surviving
font's name resolves to the index where it now sits. -/
theorem c7_theorem (fs : Fonts) (i : Nat) (f : Font)
    (hnd : (fs.fonts.map Font.name).Nodup) (hf : fs.fonts[i + 1]? = some f) :
    (fs.unload_font_by_index i).fonts[i]? = some f ∧
    (fs.unload_font_by_index i).get_index_by_name f.name = some i ∧
    (∀ j g, (fs.unload_font_by_index i).fonts[j]? = some g →
      (fs.unload_font_by_index i).get_index_by_name g.name = some j) := by
  have hlen : i + 1 < fs.fonts.length := (List.getElem?_eq_some.mp hf).1
  have hunf : fs.unload_font_by_index i =
      { fs with
        fonts := fs.fonts.eraseIdx i
        index_by_name := rebuildIndex (fs.fonts.eraseIdx i) } := by
    unfold Fonts.unload_font_by_index
    rw [if_neg (by omega)]
  have hnd2 : ((fs.fonts.eraseIdx i).map Font.name).Nodup :=
    ((List.eraseIdx_sublist fs.fonts i).map Font.name).nodup hnd
  have h1 : (fs.fonts.eraseIdx i)[i]? = some f := by
    rw [List.getElem?_eraseIdx_of_ge fs.fonts i i (le_refl i)]
    exact hf
  refine ⟨by rw [hunf]; exact h1, ?_, ?_⟩
  · rw [hunf]
    show alookup (rebuildIndex (fs.fonts.eraseIdx i)) f.name = some i
    exact lookup_rebuild_of_nodup hnd2 h1
  · intro j g hg
    rw [hunf] at hg
    rw [hunf]
    show alookup (rebuildIndex (fs.fonts.eraseIdx i)) g.name = some j
    exact lookup_rebuild_of_nodup hnd2 hg

/-- Witness for C7: unloading index 0 of three concretely loaded fonts
`A`, `B`, `C` moves font `B` to index 0 and its name resolves to 0. -/
theorem c7_witness :
    ∃ g, exFsABC.fonts[1]? = some g ∧ g.name = "B" ∧
      (exFsABC.unload_font_by_index 0).fonts[0]? = some g ∧
      (exFsABC.unload_font_by_index 0).get_index_by_name g.name = some 0 := by
  refine ⟨Font.new "B" exFdB ScalingMode.Linear 1, rfl, rfl, ?_, ?_⟩
  · exact (c7_theorem exFsABC 0 _ (by decide) rfl).1
  · exact (c7_theorem exFsABC 0 _ (by decide) rfl).2.1

theorem alookup_enumFrom_map_inv :
    ∀ (l : List Font) (n : Nat) (nm : String) (idx : Nat),
      alookup ((List.enumFrom n l).map (fun p => (p.2.name, p.1))) nm = some idx →
      ∃ f, n ≤ idx ∧ l[idx - n]? = some f ∧ f.name = nm := by
  intro l
  induction l with
  | nil => intro n nm idx h; simp [alookup] at h
  | cons g rest ih =>
    intro n nm idx h
    show ∃ f, n ≤ idx ∧ (g :: rest)[idx - n]? = some f ∧ f.name = nm
    by_cases hg : g.name = nm
    · rw [show (List.enumFrom n (g :: rest)).map (fun p => (p.2.name, p.1)) =
          (g.name, n) :: (List.enumFrom (n + 1) rest).map (fun p => (p.2.name, p.1)) from rfl,
        alookup, if_pos hg, Option.some_inj] at h
      subst h
      exact ⟨g, le_refl n, by simp, hg⟩
    · rw [show (List.enumFrom n (g :: rest)).map (fun p => (p.2.name, p.1)) =
          (g.name, n) :: (List.enumFrom (n + 1) rest).map (fun p => (p.2.name, p.1)) from rfl,
        alookup, if_neg hg] at h
      obtain ⟨f, hn1, hf, hnm⟩ := ih (n + 1) nm idx h
      refine ⟨f, by omega, ?_, hnm⟩
      have : idx - n = (idx - (n + 1)) + 1 := by omega
      rw [this, List.getElem?_cons_succ]
      exact hf

theorem lookup_rebuild_some {l : List Font} (hnd : (l.map Font.name).Nodup) {nm : String}
    {idx : Nat} (h : alookup (rebuildIndex l) nm = some idx) :
    ∃ f, l[idx]? = some f ∧ f.name = nm := by
  rw [rebuildIndex_eq_of_nodup l hnd] at h
  obtain ⟨f, _, hf, hnm⟩ := alookup_enumFrom_map_inv l 0 nm idx h
  exact ⟨f, by simpa using hf, hnm⟩

theorem map_eraseIdx {α β : Type} (g : α → β) :
    ∀ (l : List α) (i : Nat), (l.eraseIdx i).map g = (l.map g).eraseIdx i := by
  intro l
  induction l with
  | nil => intro i; rfl
  | cons x xs ih =>
    intro i
    cases i with
    | zero => rfl
    | succ i2 => simp [List.eraseIdx, ih i2]

theorem nodup_getElem_not_mem_eraseIdx {α : Type} :
    ∀ (l : List α), l.Nodup → ∀ (i : Nat) (a : α), l[i]? = some a → a ∉ l.eraseIdx i := by
  intro l
  induction l with
  | nil => intro _ i a h; simp at h
  | cons b t ih =>
    intro hnd i a h
    cases i with
    | zero =>
      simp only [List.getElem?_cons_zero, Option.some_inj] at h
      show a ∉ t
      rw [← h]
      exact (List.nodup_cons.mp hnd).1
    | succ i2 =>
      simp only [List.getElem?_cons_succ] at h
      show a ∉ b :: t.eraseIdx i2
      intro hmem
      rcases List.mem_cons.mp hmem with h2 | h2
      · exact (List.nodup_cons.mp hnd).1 (h2 ▸ List.getElem?_mem h)
      · exact ih (List.nodup_cons.mp hnd).2 i2 a h h2

theorem mem_foldl_ainsert :
    ∀ (ps : List (Nat × Font)) (m0 : List (String × Nat)) (e : String × Nat),
      e ∈ ps.foldl (fun m p => ainsert m p.2.name p.1) m0 →
      e ∈ m0 ∨ ∃ p ∈ ps, p.2.name = e.1 := by
  intro ps
  induction ps with
  | nil => intro m0 e h; exact Or.inl h
  | cons p rest ih =>
    intro m0 e h
    rw [List.foldl_cons] at h
    rcases ih _ e h with h2 | h2
    · rcases mem_ainsert h2 with h3 | h3
      · exact Or.inl h3
      · exact Or.inr ⟨p, List.mem_cons_self p rest, by rw [h3]⟩
    · obtain ⟨q, hq, hqe⟩ := h2
      exact Or.inr ⟨q, List.mem_cons_of_mem _ hq, hqe⟩

theorem snd_mem_of_mem_enumFrom {α : Type} :
    ∀ (l : List α) (n : Nat) (p : Nat × α), p ∈ List.enumFrom n l → p.2 ∈ l := by
  intro l
  induction l with
  | nil => intro n p h; simp at h
  | cons x xs ih =>
    intro n p h
    rcases List.mem_cons.mp h with h2 | h2
    · rw [h2]; exact List.mem_cons_self x xs
    · exact List.mem_cons_of_mem _ (ih (n + 1) p h2)

theorem lookup_rebuild_none {l : List Font} {nm : String} (h : ∀ g ∈ l, g.name ≠ nm) :
    alookup (rebuildIndex l) nm = none := by
  cases hlk : alookup (rebuildIndex l) nm with
  | none => rfl
  | some v =>
    have hmem := alookup_mem hlk
    rcases mem_foldl_ainsert _ _ _ hmem with h2 | h2
    · simp at h2
    · obtain ⟨p, hp, hpe⟩ := h2
      exact absurd hpe (h p.2 (snd_mem_of_mem_enumFrom l 0 p hp))

/-- Counterexample to C8's idempotence consequence: with two loaded fonts
both named `A`, the first `unload_font_by_name "A"` removes one font
(leaving one) and a repeated call removes the other (leaving zero), so
repeated unload-by-name with the same name is not idempotent. -/
theorem c8_counterexample :
    (exFsDup.unload_font_by_name "A").fonts.length = 1 ∧
    ((exFsDup.unload_font_by_name "A").unload_font_by_name "A").fonts.length = 0 ∧
    (exFsDup.unload_font_by_name "A").unload_font_by_name "A" ≠
      exFsDup.unload_font_by_name "A" := by
  refine ⟨by decide, by decide, ?_⟩
  intro h
  exact absurd (congrArg (fun z : Fonts => z.fonts.length) h) (by decide)

/-- Claim C8 as amended: out-of-range `unload_font_by_index` and
unknown-name `unload_font_by_name` are exact no-ops; and repeated
unload-by-name with the same name is idempotent provided the loaded font
names are distinct (and the name index satisfies its documented invariant
of being derived from the font sequence) — with duplicate names each call
removes one more font carrying the name. -/
theorem c8_amended_theorem (fs : Fonts) (i : Nat) (n : String) :
    (fs.fonts.length ≤ i → fs.unload_font_by_index i = fs) ∧
    (fs.get_index_by_name n = none → fs.unload_font_by_name n = fs) ∧
    ((fs.fonts.map Font.name).Nodup → fs.index_by_name = rebuildIndex fs.fonts →
      (fs.unload_font_by_name n).unload_font_by_name n = fs.unload_font_by_name n) := by
  have hnoop : ∀ (fs2 : Fonts), fs2.get_index_by_name n = none →
      fs2.unload_font_by_name n = fs2 := by
    intro fs2 h2
    unfold Fonts.unload_font_by_name
    rw [h2]
    show fs2.unload_font_by_index fs2.fonts.length = fs2
    unfold Fonts.unload_font_by_index
    rw [if_pos (le_refl _)]
  refine ⟨?_, hnoop fs, ?_⟩
  · intro hle
    unfold Fonts.unload_font_by_index
    rw [if_pos hle]
  · intro hnd hcons
    cases hlook : fs.get_index_by_name n with
    | none =>
      rw [hnoop fs hlook, hnoop fs hlook]
    | some idx =>
      have hcons2 : alookup (rebuildIndex fs.fonts) n = some idx := by
        rw [← hcons]
        exact hlook
      obtain ⟨f, hfidx, hfname⟩ := lookup_rebuild_some hnd hcons2
      have hlt : idx < fs.fonts.length := (List.getElem?_eq_some.mp hfidx).1
      have hu1 : fs.unload_font_by_name n =
          { fs with
            fonts := fs.fonts.eraseIdx idx
            index_by_name := rebuildIndex (fs.fonts.eraseIdx idx) } := by
        unfold Fonts.unload_font_by_name
        rw [hlook]
        show fs.unload_font_by_index idx = _
        unfold Fonts.unload_font_by_index
        rw [if_neg (by omega)]
      have hgone : ∀ g ∈ fs.fonts.eraseIdx idx, g.name ≠ n := by
        intro g hg hc
        have hmemname : g.name ∈ (fs.fonts.map Font.name).eraseIdx idx := by
          rw [← map_eraseIdx]
          exact List.mem_map_of_mem Font.name hg
        have hnamesidx : (fs.fonts.map Font.name)[idx]? = some f.name := by
          rw [List.getElem?_map, hfidx]
          rfl
        have hnot := nodup_getElem_not_mem_eraseIdx (fs.fonts.map Font.name) hnd idx
          f.name hnamesidx
        rw [hc, ← hfname] at hmemname
        exact hnot hmemname
      have hlook2 : (fs.unload_font_by_name n).get_index_by_name n = none := by
        rw [hu1]
        show alookup (rebuildIndex (fs.fonts.eraseIdx idx)) n = none
        exact lookup_rebuild_none hgone
      exact hnoop _ hlook2

/-- Witness for C8's amended claim at concrete inputs: an out-of-range
unload and an unknown-name unload are no-ops on two loaded fonts, and with
distinct names the repeated unload-by-name is idempotent. -/
theorem c8_amended_witness :
    exFsAB.unload_font_by_index 5 = exFsAB ∧
    exFsAB.unload_font_by_name "Z" = exFsAB ∧
    (exFsAB.unload_font_by_name "A").unload_font_by_name "A" =
      exFsAB.unload_font_by_name "A" := by
  refine ⟨?_, ?_, ?_⟩
  · exact (c8_amended_theorem exFsAB 5 "Z").1 (by decide)
  · exact (c8_amended_theorem exFsAB 5 "Z").2.1 (by decide)
  · exact (c8_amended_theorem exFsAB 5 "A").2.2 (by decide) (by decide)

/-! ### `ColoredStr` iteration -/

theorem run_next_unfold (it : ColorStrIter) :
    it.run =
      match it.next with
      | none => []
      | some (p, it2) => p :: it2.run := by
  suffices h : ∀ (n : Nat) (it : ColorStrIter), it.mu ≤ n →
      it.run =
        match it.next with
        | none => []
        | some (p, it2) => p :: it2.run from h it.mu it (le_refl _)
  intro n
  induction n with
  | zero =>
    intro it hle
    cases it with
    | mk col chars comps =>
      cases chars with
      | some cs =>
        exfalso
        simp [ColorStrIter.mu] at hle
      | none =>
        cases comps with
        | nil => simp [ColorStrIter.run, ColorStrIter.next]
        | cons comp rest =>
          exfalso
          cases comp <;> simp [ColorStrIter.mu, Component.csize] at hle
  | succ n ih =>
    intro it hle
    cases it with
    | mk col chars comps =>
      cases chars with
      | some cs =>
        cases cs with
        | nil =>
          have hmu : ColorStrIter.mu ⟨col, none, comps⟩ ≤ n := by
            simp [ColorStrIter.mu] at hle
            simp [ColorStrIter.mu]
            omega
          simp only [ColorStrIter.run, ColorStrIter.next]
          exact ih ⟨col, none, comps⟩ hmu
        | cons c cs2 => simp [ColorStrIter.run, ColorStrIter.next]
      | none =>
        cases comps with
        | nil => simp [ColorStrIter.run, ColorStrIter.next]
        | cons comp rest =>
          cases comp with
          | Str s =>
            have hmu : ColorStrIter.mu ⟨col, some s, rest⟩ ≤ n := by
              simp [ColorStrIter.mu, Component.csize] at hle
              simp [ColorStrIter.mu]
              omega
            simp only [ColorStrIter.run, ColorStrIter.next]
            exact ih ⟨col, some s, rest⟩ hmu
          | Chr c => simp [ColorStrIter.run, ColorStrIter.next]
          | Col c2 =>
            have hmu : ColorStrIter.mu ⟨some c2, none, rest⟩ ≤ n := by
              simp [ColorStrIter.mu, Component.csize] at hle
              simp [ColorStrIter.mu]
              omega
            simp only [ColorStrIter.run, ColorStrIter.next]
            exact ih ⟨some c2, none, rest⟩ hmu

theorem run_str (s : List Char) :
    ∀ (col : Option Color) (comps : List Component),
      ColorStrIter.run ⟨col, some s, comps⟩ =
        s.map (fun c => (c, col)) ++ ColorStrIter.run ⟨col, none, comps⟩ := by
  induction s with
  | nil => intro col comps; simp [ColorStrIter.run]
  | cons c cs ih => intro col comps; simp [ColorStrIter.run, ih]

theorem run_eq_spec : ∀ (comps : List Component) (col : Option Color),
    ColorStrIter.run ⟨col, none, comps⟩ = coloredStrSpec col comps := by
  intro comps
  induction comps with
  | nil => intro col; simp [ColorStrIter.run, coloredStrSpec]
  | cons comp rest ih =>
    intro col
    cases comp with
    | Str s => simp [ColorStrIter.run, coloredStrSpec, run_str, ih]
    | Chr c => simp [ColorStrIter.run, coloredStrSpec, ih]
    | Col c2 => simp [ColorStrIter.run, coloredStrSpec, ih]

/-- Claim C9: iterating a `ColoredStr` yields exactly one (character,
current color) pair per character of its `Str` and `Char` components in
sequence order, the color being the most recent preceding `Color` marker
(`none` before any marker) and `Color` components yielding no pair
(`coloredStrSpec` is that description verbatim); in particular the sequence
`[Color red, Char a, Char b, Color blue, Char c]` yields exactly
`[(a, red), (b, red), (c, blue)]`. -/
theorem c9_theorem :
    (∀ comps : List Component,
      (ColoredStr.mk comps).toPairs = coloredStrSpec none comps) ∧
    (ColoredStr.mk [Component.Col exRed, Component.Chr 'a', Component.Chr 'b',
        Component.Col exBlue, Component.Chr 'c']).toPairs =
      [('a', some exRed), ('b', some exRed), ('c', some exBlue)] := by
  have hmain : ∀ comps : List Component,
      (ColoredStr.mk comps).toPairs = coloredStrSpec none comps := by
    intro comps
    show ColorStrIter.run ⟨none, none, comps⟩ = coloredStrSpec none comps
    exact run_eq_spec comps none
  refine ⟨hmain, ?_⟩
  rw [hmain]
  simp [coloredStrSpec]

/-- Counterexample to C4: cache a glyph, then unload font 0.  The surviving
font — its glyph cache and atlas included — is retained as index 0 byte for
byte: the previously created cache entry for `('b', 16)` still exists
unchanged (it is neither destroyed nor rebuilt, and no recaching is
triggered by the unload). -/
theorem c4_counterexample :
    ∃ f1, (exFsAB.cache_glyph 'b' 16).fonts[1]? = some f1 ∧
      (alookup f1.chars ('b', 16)).isSome ∧
      ((exFsAB.cache_glyph 'b' 16).unload_font_by_index 0).fonts.length = 1 ∧
      ((exFsAB.cache_glyph 'b' 16).unload_font_by_index 0).fonts[0]? = some f1 := by
  refine ⟨_, rfl, ?_, ?_, ?_⟩
  · rfl
  · rfl
  · rfl

/-- Claim C4 as amended: an in-range unload removes exactly the unloaded
font (that font's cache and atlas are dropped with it) and retains every
surviving font — glyph cache and atlas included — completely unchanged at
its compacted index; no cache invalidation or rebuild happens
(`recache_glyphs` exists but is never invoked by unloading).  Surviving
entries are per-font and hence stay consistent with their own font. -/
theorem c4_amended_theorem (fs : Fonts) (i : Nat) (h : i < fs.fonts.length) :
    (fs.unload_font_by_index i).fonts = fs.fonts.eraseIdx i ∧
    (∀ j g, i ≤ j → fs.fonts[j + 1]? = some g →
      (fs.unload_font_by_index i).fonts[j]? = some g) ∧
    (∀ j g, j < i → fs.fonts[j]? = some g →
      (fs.unload_font_by_index i).fonts[j]? = some g) := by
  have hunf : (fs.unload_font_by_index i).fonts = fs.fonts.eraseIdx i := by
    unfold Fonts.unload_font_by_index
    rw [if_neg (not_le.mpr h)]
  refine ⟨hunf, ?_, ?_⟩
  · intro j g hj hg
    rw [hunf, List.getElem?_eraseIdx_of_ge fs.fonts i j hj]
    exact hg
  · intro j g hj hg
    rw [hunf, List.getElem?_eraseIdx_of_lt fs.fonts i j hj]
    exact hg

/-- Witness for C4's amended claim at the concrete cached two-font state:
unloading index 0 leaves exactly the survivor list, and the font that was
at index 1 is retained unchanged at index 0. -/
theorem c4_amended_witness :
    ((exFsAB.cache_glyph 'b' 16).unload_font_by_index 0).fonts =
      (exFsAB.cache_glyph 'b' 16).fonts.eraseIdx 0 ∧
    (∀ j g, 0 ≤ j → (exFsAB.cache_glyph 'b' 16).fonts[j + 1]? = some g →
      ((exFsAB.cache_glyph 'b' 16).unload_font_by_index 0).fonts[j]? = some g) ∧
    (∀ j g, j < 0 → (exFsAB.cache_glyph 'b' 16).fonts[j]? = some g →
      ((exFsAB.cache_glyph 'b' 16).unload_font_by_index 0).fonts[j]? = some g) :=
  c4_amended_theorem (exFsAB.cache_glyph 'b' 16) 0 (by decide)

/-- Counterexample to C1: with two loaded fonts, the fonts' atlases carry
two distinct texture handles (each `Font::new` creates its own atlas), and
drawing the mixed two-font string `ab` emits two draw commands referencing
the two different textures — not one shared texture binding. -/
theorem c1_counterexample :
    exFsAB.fonts[0]?.map (fun f => f.atlas.texture) = some 0 ∧
    exFsAB.fonts[1]?.map (fun f => f.atlas.texture) = some 1 ∧
    (exFsAB.draw_text_ex ['a', 'b'] exParams).map
      (fun r => r.2.1.map (fun cmd => cmd.texture)) = some [0, 1] ∧
    (0 : Nat) ≠ 1 := by
  refine ⟨rfl, rfl, ?_, by decide⟩
  simp [Fonts.draw_text_ex, Fonts.cachePass, Fonts._draw_char, Fonts.measure_scaled_text,
    measureScaledStep, exFsAB, exParams, Fonts.new, Fonts.load_font, Font.new,
    Font.cache_glyph, Font._cache_glyph, alookup, ainsert, aerase, Atlas.new,
    Atlas.new_unique_id, Atlas.cache_sprite, Atlas.get, Atlas.texture, Fonts.resolveIdx,
    Fonts.get_index_by_char, List.findIdx?, Font.contains, exFdA, exFdB, f32AsU16,
    Fonts.get_font_by_char_or_panic, Fonts.get_font_by_char, Fonts.get_index_by_name,
    Fonts.get_font_by_index, exWhite, f32MAX, f32MIN]

/-- Claim C1 as amended: every draw command emitted by `_draw_char` uses the
resolved font's own atlas texture; caching never changes a font's texture
handle (so all glyphs cached through one font share that font's single
texture); but distinct loaded fonts own distinct atlases with distinct
texture handles, so a string mixing characters of several fonts uses one
texture binding per resolved font rather than one shared binding. -/
theorem c1_amended_theorem :
    (∀ (c : Char) (w : ℚ) (col : Color) (font : Font) (params : TextParams) (adv : ℚ)
      (cmd : DrawCmd), Fonts._draw_char c w col font params = some (adv, cmd) →
        cmd.texture = font.atlas.texture) ∧
    (∀ (f : Font) (c : Char) (s : Nat), (f.cache_glyph c s).atlas.texture = f.atlas.texture) ∧
    (∀ (fs : Fonts) (n1 n2 : String) (fd1 fd2 : FontdueFont),
      ((fs.load_font n1 fd1).load_font n2 fd2).fonts[fs.fonts.length]?.map
        (fun f => f.atlas.texture) = some fs.nextTex ∧
      ((fs.load_font n1 fd1).load_font n2 fd2).fonts[fs.fonts.length + 1]?.map
        (fun f => f.atlas.texture) = some (fs.nextTex + 1) ∧
      fs.nextTex ≠ fs.nextTex + 1) := by
  refine ⟨?_, ?_, ?_⟩
  · intro c w col font params adv cmd h
    unfold Fonts._draw_char at h
    simp only [bind, Option.bind_eq_some, Option.some_inj] at h
    obtain ⟨info, _, sp, _, heq⟩ := h
    have := congrArg Prod.snd heq
    simp only at this
    rw [← this]
  · intro f c s
    show (f.cache_glyph c s).atlas.textureId = f.atlas.textureId
    exact cache_glyph_tex f c s
  · intro fs n1 n2 fd1 fd2
    have hfonts : ((fs.load_font n1 fd1).load_font n2 fd2).fonts =
        (fs.fonts ++ [Font.new n1 fd1 fs.default_sm fs.nextTex]) ++
          [Font.new n2 fd2 fs.default_sm (fs.nextTex + 1)] := rfl
    have hlen : (fs.fonts ++ [Font.new n1 fd1 fs.default_sm fs.nextTex]).length =
        fs.fonts.length + 1 := by simp
    refine ⟨?_, ?_, by omega⟩
    · rw [hfonts, List.getElem?_append_left (by simp), List.getElem?_concat_length]
      rfl
    · rw [hfonts, show fs.fonts.length + 1 =
        (fs.fonts ++ [Font.new n1 fd1 fs.default_sm fs.nextTex]).length from hlen.symm,
        List.getElem?_concat_length]
      rfl

/-- Witness for C1's amended claim: a command emitted for the concrete
cached font uses that font's texture handle 0, and loading two fonts into
an empty `Fonts` gives them texture handles 0 and 1. -/
theorem c1_amended_witness :
    (∃ adv cmd, Fonts._draw_char 'a' 0 exWhite (exFont1.cache_glyph 'a' 16) exParams =
        some (adv, cmd) ∧ cmd.texture = (exFont1.cache_glyph 'a' 16).atlas.texture) ∧
    (exFont1.cache_glyph 'a' 16).atlas.texture = exFont1.atlas.texture ∧
    exFsAB.fonts[(Fonts.new ScalingMode.Linear).fonts.length]?.map
      (fun f => f.atlas.texture) = some (Fonts.new ScalingMode.Linear).nextTex := by
  refine ⟨?_, ?_, ?_⟩
  · obtain ⟨p, hp⟩ : ∃ p, Fonts._draw_char 'a' 0 exWhite (exFont1.cache_glyph 'a' 16)
        exParams = some p := ⟨_, rfl⟩
    have hp2 : Fonts._draw_char 'a' 0 exWhite (exFont1.cache_glyph 'a' 16) exParams =
        some (p.1, p.2) := by rw [hp]
    exact ⟨p.1, p.2, hp2, c1_amended_theorem.1 'a' 0 exWhite _ exParams p.1 p.2 hp2⟩
  · exact c1_amended_theorem.2.1 exFont1 'a' 16
  · exact (c1_amended_theorem.2.2 (Fonts.new ScalingMode.Linear) "A" "B" exFdA exFdB).1

/-! ### Success and failure of every measuring and drawing entry point -/

theorem cachedInfo_gfbcop {fs : Fonts} {sz : Nat} {c : Char} {info : CharacterInfo}
    {sp : Sprite} (h : fs.cachedInfo sz c = some (info, sp)) :
    ∃ font, fs.get_font_by_char_or_panic c = some font ∧
      alookup font.chars (c, sz) = some info ∧ font.atlas.get info.id = some sp := by
  simp only [Fonts.cachedInfo, bind, Option.bind_eq_some, Option.some_inj] at h
  obtain ⟨i, hi, font, hfont, info2, hinfo2, sp2, hsp2, heq⟩ := h
  have h1 : info2 = info := congrArg Prod.fst heq
  have h2 : sp2 = sp := congrArg Prod.snd heq
  rw [h1] at hinfo2
  rw [h1, h2] at hsp2
  refine ⟨font, ?_, hinfo2, hsp2⟩
  rw [resolve_font, hi, Option.some_bind, hfont]

theorem draw_char_some_of_cached {font : Font} {c : Char} {params : TextParams}
    {info : CharacterInfo} {sp : Sprite} (w : ℚ) (col : Color)
    (hinfo : alookup font.chars (c, f32AsU16 params.size) = some info)
    (hsp : font.atlas.get info.id = some sp) :
    (Fonts._draw_char c w col font params).isSome := by
  simp only [Fonts._draw_char, bind, hinfo, Option.some_bind, hsp]
  rfl

theorem measureScaledStep_fonts {sz : Nat} {sc : ℚ} {acc acc' : MeasureAcc} {c : Char}
    (h : measureScaledStep sz sc acc c = some acc') :
    ∃ i font0, acc.fonts.resolveIdx c = some i ∧ acc.fonts.fonts[i]? = some font0 ∧
      acc'.fonts = { acc.fonts with fonts := acc.fonts.fonts.set i (font0.cache_glyph c sz) } := by
  unfold measureScaledStep at h
  simp only [bind, Option.bind_eq_some, Option.some_inj] at h
  obtain ⟨i, hi, font0, hfont0, info, hinfo, sp, hsp, hacc⟩ := h
  exact ⟨i, font0, hi, hfont0, by rw [← hacc]⟩

theorem measureScaledStep_isSome (sz : Nat) (sc : ℚ) {acc : MeasureAcc}
    (hwf : acc.fonts.WF) (hne : acc.fonts.fonts ≠ []) (c : Char) :
    (measureScaledStep sz sc acc c).isSome := by
  obtain ⟨i, font0, hres, hfont0⟩ := resolveIdx_isSome_spec hne c
  obtain ⟨info, sp, hinfo, hsp⟩ :=
    cache_glyph_get_self (hwf font0 (List.getElem?_mem hfont0)) c sz
  simp only [measureScaledStep, bind, hres, Option.some_bind, hfont0, hinfo, hsp]
  rfl

theorem measureScaledStep_none_of_empty {sz : Nat} {sc : ℚ} {acc : MeasureAcc}
    (h : acc.fonts.fonts = []) (c : Char) : measureScaledStep sz sc acc c = none := by
  have hres : acc.fonts.resolveIdx c = none := by
    unfold Fonts.resolveIdx Fonts.get_index_by_char
    rw [h]
    rfl
  simp only [measureScaledStep, bind, hres, Option.none_bind]

theorem measureScaled_fold_isSome (sz : Nat) (sc : ℚ) :
    ∀ (text : List Char) (acc : MeasureAcc), acc.fonts.WF → acc.fonts.fonts ≠ [] →
      (text.foldlM (measureScaledStep sz sc) acc).isSome := by
  intro text
  induction text with
  | nil => intro acc _ _; simp
  | cons c rest ih =>
    intro acc hwf hne
    rw [List.foldlM_cons]
    obtain ⟨acc1, hstep⟩ := Option.isSome_iff_exists.mp (measureScaledStep_isSome sz sc hwf hne c)
    obtain ⟨i, font0, hi, hfont0, hfonts1⟩ := measureScaledStep_fonts hstep
    have hwf1 : acc1.fonts.WF := by
      rw [hfonts1]
      exact measureStep_WF hwf hfont0
    have hne1 : acc1.fonts.fonts ≠ [] := by
      rw [hfonts1]
      show acc.fonts.fonts.set i (font0.cache_glyph c sz) ≠ []
      intro hc
      exact hne (by simpa using congrArg List.length hc)
    simp only [bind, hstep, Option.some_bind]
    exact ih acc1 hwf1 hne1

theorem measureScaled_fold_none_of_empty (sz : Nat) (sc : ℚ) {text : List Char}
    (hne : text ≠ []) {acc : MeasureAcc} (h : acc.fonts.fonts = []) :
    text.foldlM (measureScaledStep sz sc) acc = none := by
  cases text with
  | nil => exact absurd rfl hne
  | cons c rest =>
    rw [List.foldlM_cons]
    simp only [bind, measureScaledStep_none_of_empty h c, Option.none_bind]

theorem measure_isSome_iff (fs : Fonts) (text : List Char) (size : ℚ) (hwf : fs.WF)
    (hne : text ≠ []) : (fs.measure_text text size).isSome ↔ fs.fonts ≠ [] := by
  by_cases he : fs.fonts = []
  · have hnone : fs.measure_text text size = none := by
      unfold Fonts.measure_text
      rw [show (List.foldlM (measureStep (f32AsU16 size))
          { fonts := fs, width := 0, min_y := f32MAX, max_y := f32MIN } text : Option MeasureAcc)
        = none from measure_fold_none_of_empty (f32AsU16 size) hne he]
      rfl
    simp [hnone, he]
  · have hsome := measure_fold_isSome (f32AsU16 size) text
      { fonts := fs, width := 0, min_y := f32MAX, max_y := f32MIN } hwf he
    obtain ⟨acc', hacc⟩ := Option.isSome_iff_exists.mp hsome
    have hs : fs.measure_text text size =
        some (acc'.fonts,
          { width := acc'.width, height := acc'.max_y - acc'.min_y, offset_y := acc'.max_y }) := by
      unfold Fonts.measure_text
      rw [show (List.foldlM (measureStep (f32AsU16 size))
          { fonts := fs, width := 0, min_y := f32MAX, max_y := f32MIN } text : Option MeasureAcc)
        = some acc' from hacc]
      rfl
    simp [hs, he]

theorem measure_scaled_isSome_iff (fs : Fonts) (text : List Char) (size scale : ℚ)
    (hwf : fs.WF) (hne : text ≠ []) :
    (fs.measure_scaled_text text size scale).isSome ↔ fs.fonts ≠ [] := by
  by_cases he : fs.fonts = []
  · have hnone : fs.measure_scaled_text text size scale = none := by
      unfold Fonts.measure_scaled_text
      rw [show (List.foldlM (measureScaledStep (f32AsU16 size) scale)
          { fonts := fs, width := 0, min_y := f32MAX, max_y := f32MIN } text : Option MeasureAcc)
        = none from measureScaled_fold_none_of_empty (f32AsU16 size) scale hne he]
      rfl
    simp [hnone, he]
  · have hsome := measureScaled_fold_isSome (f32AsU16 size) scale text
      { fonts := fs, width := 0, min_y := f32MAX, max_y := f32MIN } hwf he
    obtain ⟨acc', hacc⟩ := Option.isSome_iff_exists.mp hsome
    have hs : fs.measure_scaled_text text size scale =
        some (acc'.fonts,
          { width := acc'.width, height := acc'.max_y - acc'.min_y, offset_y := acc'.max_y }) := by
      unfold Fonts.measure_scaled_text
      rw [show (List.foldlM (measureScaledStep (f32AsU16 size) scale)
          { fonts := fs, width := 0, min_y := f32MAX, max_y := f32MIN } text : Option MeasureAcc)
        = some acc' from hacc]
      rfl
    simp [hs, he]

theorem cachePass_spec (sz : Nat) :
    ∀ (text : List Char) (fs fs1 : Fonts), fs.cachePass sz text = some fs1 →
      fs1.sig = fs.sig ∧
      (∀ c2 v, fs.cachedInfo sz c2 = some v → fs1.cachedInfo sz c2 = some v) ∧
      (fs.WF → fs1.WF) ∧
      (fs.WF → ∀ c ∈ text, (fs1.cachedInfo sz c).isSome) := by
  intro text
  induction text with
  | nil =>
    intro fs fs1 h
    have h2 : fs = fs1 := by simpa [Fonts.cachePass] using h
    subst h2
    exact ⟨rfl, fun c2 v hv => hv, fun hwf => hwf, by simp⟩
  | cons c rest ih =>
    intro fs fs1 h
    unfold Fonts.cachePass at h
    rw [List.foldlM_cons] at h
    simp only [bind, Option.bind_eq_some] at h
    obtain ⟨fs1', hstep, hrest⟩ := h
    simp only [bind, Option.bind_eq_some, Option.some_inj] at hstep
    obtain ⟨i, hi, font0, hfont0, heq⟩ := hstep
    obtain ⟨ihsig, ihmono, ihwf, ihcached⟩ := ih fs1' fs1 hrest
    have hsig1 : fs1'.sig = fs.sig := by
      rw [← heq]
      exact sig_set_cache hfont0 c sz
    have hmono1 : ∀ c2 v, fs.cachedInfo sz c2 = some v → fs1'.cachedInfo sz c2 = some v := by
      intro c2 v hv
      rw [← heq]
      exact measureStep_cachedInfo_mono hi hfont0 hv
    have hwf1 : fs.WF → fs1'.WF := by
      intro hwf
      rw [← heq]
      exact measureStep_WF hwf hfont0
    refine ⟨ihsig.trans hsig1, fun c2 v hv => ihmono c2 v (hmono1 c2 v hv),
      fun hwf => ihwf (hwf1 hwf), ?_⟩
    intro hwf c2 hc2
    rcases List.mem_cons.mp hc2 with h2 | h2
    · subst h2
      obtain ⟨info, sp, hinfo, hsp⟩ :=
        cache_glyph_get_self (hwf font0 (List.getElem?_mem hfont0)) c2 sz
      have hself : fs1'.cachedInfo sz c2 = some (info, sp) := by
        rw [← heq]
        exact measureStep_cachedInfo_self hi hfont0 hinfo hsp
      rw [ihmono c2 (info, sp) hself]
      rfl
    · exact ihcached (hwf1 hwf) c2 h2

theorem cachePass_isSome (sz : Nat) :
    ∀ (text : List Char) (fs : Fonts), fs.fonts ≠ [] → (fs.cachePass sz text).isSome := by
  intro text
  induction text with
  | nil => intro fs _; simp [Fonts.cachePass]
  | cons c rest ih =>
    intro fs hne
    unfold Fonts.cachePass
    rw [List.foldlM_cons]
    obtain ⟨i, font0, hres, hfont0⟩ := resolveIdx_isSome_spec hne c
    simp only [bind, hres, Option.some_bind, hfont0]
    have hne1 : ({ fs with
        fonts := fs.fonts.set i (font0.cache_glyph c sz) } : Fonts).fonts ≠ [] := by
      show fs.fonts.set i (font0.cache_glyph c sz) ≠ []
      intro hc
      exact hne (by simpa using congrArg List.length hc)
    exact ih _ hne1

theorem cachePass_none_of_empty (sz : Nat) {text : List Char} (hne : text ≠ []) {fs : Fonts}
    (h : fs.fonts = []) : fs.cachePass sz text = none := by
  cases text with
  | nil => exact absurd rfl hne
  | cons c rest =>
    unfold Fonts.cachePass
    rw [List.foldlM_cons]
    have hres : fs.resolveIdx c = none := by
      unfold Fonts.resolveIdx Fonts.get_index_by_char
      rw [h]
      rfl
    simp only [bind, hres, Option.none_bind]

theorem draw_fold_isSome (fs1 : Fonts) (params : TextParams) :
    ∀ (text : List Char), (∀ c ∈ text, (fs1.cachedInfo (f32AsU16 params.size) c).isSome) →
      ∀ (acc : ℚ × List DrawCmd),
        (text.foldlM
          (fun (acc : ℚ × List DrawCmd) c => do
            let font ← fs1.get_font_by_char_or_panic c
            let p ← Fonts._draw_char c acc.1 params.color font params
            some (acc.1 + p.1, acc.2 ++ [p.2])) acc).isSome := by
  intro text
  induction text with
  | nil => intro _ acc; simp
  | cons c rest ih =>
    intro hc acc
    rw [List.foldlM_cons]
    obtain ⟨v, hv⟩ := Option.isSome_iff_exists.mp (hc c (List.mem_cons_self c rest))
    obtain ⟨font, hfont, hinfo, hsp⟩ := cachedInfo_gfbcop
      (show fs1.cachedInfo (f32AsU16 params.size) c = some (v.1, v.2) by rw [hv])
    obtain ⟨p, hp⟩ := Option.isSome_iff_exists.mp
      (draw_char_some_of_cached acc.1 params.color hinfo hsp)
    simp only [bind, hfont, Option.some_bind, hp]
    exact ih (fun c2 h2 => hc c2 (List.mem_cons_of_mem _ h2)) _

theorem draw_fold_colored_isSome (fs1 : Fonts) (params : TextParams) :
    ∀ (pairs : List (Char × Option Color)),
      (∀ p ∈ pairs, (fs1.cachedInfo (f32AsU16 params.size) p.1).isSome) →
      ∀ (acc : ℚ × List DrawCmd),
        (pairs.foldlM
          (fun (acc : ℚ × List DrawCmd) (p : Char × Option Color) => do
            let color := p.2.getD params.color
            let font ← fs1.get_font_by_char_or_panic p.1
            let q ← Fonts._draw_char p.1 acc.1 color font params
            some (acc.1 + q.1, acc.2 ++ [q.2])) acc).isSome := by
  intro pairs
  induction pairs with
  | nil => intro _ acc; simp
  | cons p rest ih =>
    intro hc acc
    rw [List.foldlM_cons]
    obtain ⟨v, hv⟩ := Option.isSome_iff_exists.mp (hc p (List.mem_cons_self p rest))
    obtain ⟨font, hfont, hinfo, hsp⟩ := cachedInfo_gfbcop
      (show fs1.cachedInfo (f32AsU16 params.size) p.1 = some (v.1, v.2) by rw [hv])
    obtain ⟨q, hq⟩ := Option.isSome_iff_exists.mp
      (draw_char_some_of_cached acc.1 (p.2.getD params.color) hinfo hsp)
    simp only [bind, hfont, Option.some_bind, hq]
    exact ih (fun p2 h2 => hc p2 (List.mem_cons_of_mem _ h2)) _

theorem draw_text_ex_isSome_iff (fs : Fonts) (text : List Char) (params : TextParams)
    (hwf : fs.WF) (hne : text ≠ []) :
    (fs.draw_text_ex text params).isSome ↔ fs.fonts ≠ [] := by
  by_cases he : fs.fonts = []
  · have h1 : fs.draw_text_ex text params = none := by
      unfold Fonts.draw_text_ex
      rw [show fs.cachePass (f32AsU16 params.size) text = none from
        cachePass_none_of_empty _ hne he]
      rfl
    simp [h1, he]
  · obtain ⟨fs1, hfs1⟩ := Option.isSome_iff_exists.mp (cachePass_isSome _ text fs he)
    obtain ⟨hsig, _, hwfp, hcached⟩ := cachePass_spec _ text fs fs1 hfs1
    have hwf1 : fs1.WF := hwfp hwf
    have hne1 : fs1.fonts ≠ [] := by
      intro hc
      apply he
      have hl := length_eq_of_sig hsig
      rw [hc] at hl
      exact List.length_eq_zero.mp hl.symm
    obtain ⟨r, hr⟩ := Option.isSome_iff_exists.mp
      (draw_fold_isSome fs1 params text (hcached hwf) (0, []))
    obtain ⟨m, hm⟩ := Option.isSome_iff_exists.mp
      ((measure_scaled_isSome_iff fs1 text params.size params.scale hwf1 hne).mpr hne1)
    have h1 : fs.draw_text_ex text params = some (m.1, r.2, m.2) := by
      simp only [bind] at hr
      unfold Fonts.draw_text_ex
      rw [hfs1]
      simp only [bind, Option.some_bind]
      rw [hr]
      simp only [Option.some_bind]
      rw [hm]
      rfl
    simp [h1, he]

theorem draw_colored_text_ex_isSome_iff (fs : Fonts) (ctext : ColoredStr)
    (params : TextParams) (hwf : fs.WF) (hne : ctext.toPairs ≠ []) :
    (fs.draw_colored_text_ex ctext params).isSome ↔ fs.fonts ≠ [] := by
  have hnem : ctext.toPairs.map (fun p => p.1) ≠ [] := by simpa using hne
  by_cases he : fs.fonts = []
  · have h1 : fs.draw_colored_text_ex ctext params = none := by
      unfold Fonts.draw_colored_text_ex
      rw [show fs.cachePass (f32AsU16 params.size) (ctext.toPairs.map (fun p => p.1)) = none
        from cachePass_none_of_empty _ hnem he]
      rfl
    simp [h1, he]
  · obtain ⟨fs1, hfs1⟩ := Option.isSome_iff_exists.mp
      (cachePass_isSome _ (ctext.toPairs.map (fun p => p.1)) fs he)
    obtain ⟨hsig, _, hwfp, hcached⟩ :=
      cachePass_spec _ (ctext.toPairs.map (fun p => p.1)) fs fs1 hfs1
    have hwf1 : fs1.WF := hwfp hwf
    have hne1 : fs1.fonts ≠ [] := by
      intro hc
      apply he
      have hl := length_eq_of_sig hsig
      rw [hc] at hl
      exact List.length_eq_zero.mp hl.symm
    have hcached2 : ∀ p ∈ ctext.toPairs, (fs1.cachedInfo (f32AsU16 params.size) p.1).isSome :=
      fun p hp => hcached hwf p.1 (List.mem_map_of_mem (fun q => q.1) hp)
    obtain ⟨r, hr⟩ := Option.isSome_iff_exists.mp
      (draw_fold_colored_isSome fs1 params ctext.toPairs hcached2 (0, []))
    obtain ⟨m, hm⟩ := Option.isSome_iff_exists.mp
      ((measure_scaled_isSome_iff fs1 (ctext.toPairs.map (fun p => p.1)) params.size
        params.scale hwf1 hnem).mpr hne1)
    have h1 : fs.draw_colored_text_ex ctext params = some (m.1, r.2, m.2) := by
      simp only [bind] at hr
      unfold Fonts.draw_colored_text_ex
      rw [hfs1]
      simp only [bind, Option.some_bind]
      rw [hr]
      simp only [Option.some_bind]
      rw [hm]
      rfl
    simp [h1, he]

theorem draw_char_isSome_iff (fs : Fonts) (c : Char) (w : ℚ) (params : TextParams)
    (hwf : fs.WF) : (fs.draw_char c w params).isSome ↔ fs.fonts ≠ [] := by
  by_cases he : fs.fonts = []
  · have hres : fs.resolveIdx c = none := by
      unfold Fonts.resolveIdx Fonts.get_index_by_char
      rw [he]
      rfl
    have h1 : fs.draw_char c w params = none := by
      unfold Fonts.draw_char
      simp only [bind, hres, Option.none_bind]
    simp [h1, he]
  · obtain ⟨i, font0, hres, hfont0⟩ := resolveIdx_isSome_spec he c
    obtain ⟨info, sp, hinfo, hsp⟩ :=
      cache_glyph_get_self (hwf font0 (List.getElem?_mem hfont0)) c (f32AsU16 params.size)
    obtain ⟨p, hp⟩ := Option.isSome_iff_exists.mp
      (draw_char_some_of_cached w params.color hinfo hsp)
    have h1 : (fs.draw_char c w params).isSome := by
      unfold Fonts.draw_char
      simp only [bind, hres, Option.some_bind, hfont0, hp]
      rfl
    simp [h1, he]

/-- Claim C5: `get_font_by_char_or_panic` panics (returns `none`) exactly
when zero fonts are loaded; with at least one font it always returns the
lowest-index font containing the character, or the first loaded font when
none contains it; and every measure or draw call over a nonempty character
sequence — `measure_text`, `measure_scaled_text`, `draw_text_ex`,
`draw_text`, `draw_colored_text_ex`, and `draw_char` — succeeds iff the
font list is nonempty (the well-formedness hypothesis states the coherence
of the private cache/atlas state, which holds for every state reachable
through the API). -/
theorem c5_theorem (fs : Fonts) (c : Char) (text : List Char) (size scale : ℚ)
    (params : TextParams) (ctext : ColoredStr) (w x y : ℚ) (col : Color) :
    (fs.fonts = [] → fs.get_font_by_char_or_panic c = none) ∧
    (fs.fonts ≠ [] → ∃ i f, fs.get_font_by_char_or_panic c = some f ∧ fs.fonts[i]? = some f ∧
      ((f.contains c = true ∧ ∀ j g, j < i → fs.fonts[j]? = some g → g.contains c = false) ∨
       (i = 0 ∧ ∀ g ∈ fs.fonts, g.contains c = false))) ∧
    (fs.WF → text ≠ [] → ((fs.measure_text text size).isSome ↔ fs.fonts ≠ [])) ∧
    (fs.WF → text ≠ [] → ((fs.measure_scaled_text text size scale).isSome ↔ fs.fonts ≠ [])) ∧
    (fs.WF → text ≠ [] → ((fs.draw_text_ex text params).isSome ↔ fs.fonts ≠ [])) ∧
    (fs.WF → text ≠ [] → ((fs.draw_text text x y size col).isSome ↔ fs.fonts ≠ [])) ∧
    (fs.WF → ctext.toPairs ≠ [] →
      ((fs.draw_colored_text_ex ctext params).isSome ↔ fs.fonts ≠ [])) ∧
    (fs.WF → ((fs.draw_char c w params).isSome ↔ fs.fonts ≠ [])) := by
  refine ⟨?_, ?_, ?_, ?_, ?_, ?_, ?_, ?_⟩
  · intro he
    rw [resolve_font]
    simp [Fonts.resolveIdx, Fonts.get_index_by_char, he]
  · intro hne
    cases hidx : fs.get_index_by_char c with
    | some i =>
      obtain ⟨⟨x2, hx, hpx⟩, hmin⟩ := findIdxQ_some_spec _ _ _ hidx
      refine ⟨i, x2, ?_, hx, Or.inl ⟨hpx, fun j g hj hg => hmin j g hj hg⟩⟩
      rw [resolve_font]
      have hres : fs.resolveIdx c = some i := by
        unfold Fonts.resolveIdx
        rw [hidx]
      rw [hres, Option.some_bind, hx]
    | none =>
      have hemp : fs.fonts.isEmpty = false := by
        cases hfl : fs.fonts with
        | nil => exact absurd hfl hne
        | cons a l => rfl
      obtain ⟨f0, hf0⟩ : ∃ f0, fs.fonts[0]? = some f0 := by
        cases hfl : fs.fonts with
        | nil => exact absurd hfl hne
        | cons a l => exact ⟨a, by simp⟩
      have hall := (findIdxQ_none_spec _ _).mp hidx
      refine ⟨0, f0, ?_, hf0, Or.inr ⟨rfl, hall⟩⟩
      rw [resolve_font]
      have hres : fs.resolveIdx c = some 0 := by
        unfold Fonts.resolveIdx
        rw [hidx, hemp]
        rfl
      rw [hres, Option.some_bind, hf0]
  · intro hwf hne
    exact measure_isSome_iff fs text size hwf hne
  · intro hwf hne
    exact measure_scaled_isSome_iff fs text size scale hwf hne
  · intro hwf hne
    exact draw_text_ex_isSome_iff fs text params hwf hne
  · intro hwf hne
    unfold Fonts.draw_text
    exact draw_text_ex_isSome_iff fs text _ hwf hne
  · intro hwf hne
    exact draw_colored_text_ex_isSome_iff fs ctext params hwf hne
  · intro hwf
    exact draw_char_isSome_iff fs c w params hwf

/-- Witness for C5 at concrete instances: the empty font set panics on
resolution, the two-font set resolves `b` to the second font, and every
measure and draw entry point on a one-character sequence succeeds on the
two-font set (iff its font list is nonempty). -/
theorem c5_witness :
    ((Fonts.new ScalingMode.Linear).get_font_by_char_or_panic 'a' = none) ∧
    (∃ i f, exFsAB.get_font_by_char_or_panic 'b' = some f ∧ exFsAB.fonts[i]? = some f ∧
      ((f.contains 'b' = true ∧ ∀ j g, j < i → exFsAB.fonts[j]? = some g →
        g.contains 'b' = false) ∨
       (i = 0 ∧ ∀ g ∈ exFsAB.fonts, g.contains 'b' = false))) ∧
    ((exFsAB.measure_text ['b'] 16).isSome ↔ exFsAB.fonts ≠ []) ∧
    ((exFsAB.measure_scaled_text ['b'] 16 2).isSome ↔ exFsAB.fonts ≠ []) ∧
    ((exFsAB.draw_text_ex ['b'] exParams).isSome ↔ exFsAB.fonts ≠ []) ∧
    ((exFsAB.draw_text ['b'] 0 0 16 exWhite).isSome ↔ exFsAB.fonts ≠ []) ∧
    ((exFsAB.draw_colored_text_ex exColored exParams).isSome ↔ exFsAB.fonts ≠ []) ∧
    ((exFsAB.draw_char 'b' 0 exParams).isSome ↔ exFsAB.fonts ≠ []) := by
  have hpairs : exColored.toPairs = [('b', none)] := by
    show ColorStrIter.run ⟨none, none, [Component.Chr 'b']⟩ = [('b', none)]
    rw [run_eq_spec]
    simp [coloredStrSpec]
  refine ⟨?_, ?_, ?_, ?_, ?_, ?_, ?_, ?_⟩
  · exact (c5_theorem (Fonts.new ScalingMode.Linear) 'a' ['a'] 16 1 exParams exColored
      0 0 0 exWhite).1 rfl
  · exact (c5_theorem exFsAB 'b' ['b'] 16 1 exParams exColored 0 0 0 exWhite).2.1
      (by simp [exFsAB, Fonts.load_font])
  · exact (c5_theorem exFsAB 'b' ['b'] 16 1 exParams exColored 0 0 0 exWhite).2.2.1
      exFsAB_WF (by simp)
  · exact (c5_theorem exFsAB 'b' ['b'] 16 2 exParams exColored 0 0 0 exWhite).2.2.2.1
      exFsAB_WF (by simp)
  · exact (c5_theorem exFsAB 'b' ['b'] 16 1 exParams exColored 0 0 0 exWhite).2.2.2.2.1
      exFsAB_WF (by simp)
  · exact (c5_theorem exFsAB 'b' ['b'] 16 1 exParams exColored 0 0 0 exWhite).2.2.2.2.2.1
      exFsAB_WF (by simp)
  · exact (c5_theorem exFsAB 'b' ['b'] 16 1 exParams exColored 0 0 0 exWhite).2.2.2.2.2.2.1
      exFsAB_WF (by rw [hpairs]; simp)
  · exact (c5_theorem exFsAB 'b' ['b'] 16 1 exParams exColored 0 0 0 exWhite).2.2.2.2.2.2.2
      exFsAB_WF
